import Mathlib

/-!
# SpRead.Qt: a shallow embedding of the image pipeline

The definitions follow `src/src/ImageViewer.cpp` and `src/src/image.cpp`.

Conventions of the embedding:

* C++ `int` is `Int`; `/` and `%` on `int` are `Int.tdiv` and `Int.tmod`
  (truncation toward zero). Values stay far below `2^31` for any playlist or
  image that fits in memory, so wrap-around is not modelled.
* C++ `double` / `qreal` is `ℚ` (exact arithmetic); the conversion of a
  `double` to `int` truncates toward zero (`toInt`).
* A `QListWidgetItem*` is a natural number (the address); a `PlayListItem` is
  the address together with the `File` it carries.
* A `QImage` is a raster: width, height and the row-major `QRgb` buffer.
* A pointer that may be null is an `Option`; dereferencing the null pointer
  has no result (`none`, or the outcome `Fetched.crash`). `assert` is compiled
  out.
* The `QCache` is its capacity and its nodes in order of use; the mutex is
  the flag `held` of the running thread, and every access to the cache or to
  the file system is recorded with the value of that flag.
-/

set_option autoImplicit false

namespace SpRead

/-! ## C++ integer helpers -/

/-- The values taken by the counter of `for (int i = lo; i < hi; i++)`. -/
def forRange (lo hi : Int) : List Int :=
  (List.range (hi - lo).toNat).map (fun (k : Nat) => lo + (k : Int))

/-- A loop whose body may dereference a null pointer: the results in order,
or `none` as soon as one pass has no defined result. -/
def collect {α β : Type} (f : α → Option β) : List α → Option (List β)
  | [] => some []
  | a :: as =>
    match f a with
    | none => none
    | some b =>
      match collect f as with
      | none => none
      | some bs => some (b :: bs)

/-! ## `ImageViewer::File` -/

/-- The enum `ImageViewer::File::FileType`. -/
inductive FileType where
  | INVALID
  | RAW
  | ARCHIVE
  deriving DecidableEq, Repr

/-- A `QByteArray`: a sequence of bytes. -/
abbrev QByteArray := List Nat

/-- The conversion `QString(const QByteArray &)` used by the archive
constructor of `File`: every byte becomes the character with that code. -/
def QString.ofBytes (b : QByteArray) : String :=
  String.mk (b.map Char.ofNat)

/-- The class `ImageViewer::File` with its four members. -/
structure File where
  ft : FileType
  archive_path : String
  file_path : String
  raw_file_path : QByteArray
  deriving DecidableEq, Repr

namespace File

/-- `File::File(const QString &archivePath, const QByteArray &rfilepath)`. -/
def ofArchive (archivePath : String) (rfilepath : QByteArray) : File :=
  { ft := FileType.ARCHIVE
    archive_path := archivePath
    file_path := QString.ofBytes rfilepath
    raw_file_path := rfilepath }

/-- `File::File(const QString &filePath)`. -/
def ofRaw (filePath : String) : File :=
  { ft := FileType.RAW
    archive_path := ""
    file_path := filePath
    raw_file_path := [] }

/-- `File::File()`. -/
def invalid : File :=
  { ft := FileType.INVALID
    archive_path := ""
    file_path := ""
    raw_file_path := [] }

/-- `File::fileType`. -/
def fileType (f : File) : FileType := f.ft

/-- `File::createKey`: for an archive entry the archive path, a slash and
the entry text; for a raw file the path; the empty string otherwise. -/
def createKey (f : File) : String :=
  if f.ft = FileType.ARCHIVE then
    "" ++ f.archive_path ++ "/" ++ f.file_path
  else if f.ft = FileType.RAW then
    f.file_path
  else
    ""

end File

/-! ## Playlist and prefetch members of `ImageViewer` -/

/-- A `PlayListItem`: the address of the list widget item and its `File`. -/
structure PlayListItem where
  ptr : Nat
  f : File
  deriving DecidableEq, Repr

/-- The members of `ImageViewer` that the playlist and prefetch code reads or
writes. `playlist` is the content of the `QListWidget` in row order;
`prfter_running` is `prfter.isRunning()`, `prfter_plist` the list handed to
`Prefetcher::setPrefetchImage`, `cache_maxCost` is `cache.maxCost()`.
`shows` counts the calls of `showImages()`, whose effect on the images
(`img_orgs`, `img_combined`, `img_scaled`) lies outside these members;
`next_ptr` is the next fresh item address. -/
structure ImageViewer where
  playlist : List PlayListItem
  img_count : Int
  index : Int
  spread_view : Bool
  rightbinding : Bool
  cache_maxCost : Int
  prfter_running : Bool
  prfter_plist : List File
  prft_old : List Nat
  prft_now : List Nat
  shows : Nat
  next_ptr : Nat
  deriving DecidableEq, Repr

namespace ImageViewer

/-- The state built by the constructor: empty playlist, `index(-1)`,
`img_count(0)`, `spread_view(false)`, `rightbinding(false)`, `cache(20)`. -/
def init : ImageViewer :=
  { playlist := []
    img_count := 0
    index := -1
    spread_view := false
    rightbinding := false
    cache_maxCost := 20
    prfter_running := false
    prfter_plist := []
    prft_old := []
    prft_now := []
    shows := 0
    next_ptr := 0 }

/-- `ImageViewer::count`. -/
def count (v : ImageViewer) : Int := v.img_count

/-- `ImageViewer::empty`. -/
def empty (v : ImageViewer) : Bool := v.count == 0

/-- `ImageViewer::countShowImages`. -/
def countShowImages (v : ImageViewer) : Int :=
  let c : Int := if v.spread_view then 2 else 1
  min c v.count

/-- `ImageViewer::validIndex`. -/
def validIndex (v : ImageViewer) (i : Int) : Bool :=
  decide (0 ≤ i) && decide (i < v.count)

/-- `ImageViewer::getImageCacheSize`. -/
def getImageCacheSize (v : ImageViewer) : Int := v.cache_maxCost

/-- `ImageViewer::isRightbindingMode`. -/
def isRightbindingMode (v : ImageViewer) : Bool := v.rightbinding

/-- `QListWidget::item(int row)`: the item in that row, or the null pointer
(`none`) when the row is out of range. -/
def item (v : ImageViewer) (row : Int) : Option PlayListItem :=
  if 0 ≤ row then v.playlist[row.toNat]? else none

/-- `QListWidget::row(item)`: the row of the item with that address, `-1` when
the list does not hold it. -/
def row (v : ImageViewer) (p : Nat) : Int :=
  let i := v.playlist.findIdx (fun it => it.ptr == p)
  if i < v.playlist.length then (i : Int) else -1

/-- `ImageViewer::currentIndex`. -/
def currentIndex (v : ImageViewer) (i : Int) : Int :=
  if 0 ≤ i ∧ i < v.countShowImages then (v.index + i).tmod v.count else -1

/-- The row computed by one pass of the loop body of `startPrefetch`:
`ti = (index + i) % c; if (ti < 0) ti += c;`. -/
def prefetchRow (index c i : Int) : Int :=
  let ti := (index + i).tmod c
  if ti < 0 then ti + c else ti

/-- The rows visited by the loop of `startPrefetch`, in order, for cursor
`index`, playlist length `c` and cache capacity `cacheSize`. -/
def prefetchRows (index c cacheSize : Int) : List Int :=
  let plen := min cacheSize c
  let l := plen.tdiv 2 - 1
  let r := plen.tdiv 2 + plen.tmod 2 + 1
  (forRange (-l) r).map (prefetchRow index c)

/-- `ImageViewer::startPrefetch`. When the prefetcher is idle and the playlist
is not empty, the window of rows around the cursor is collected (files into
`prfter_plist`, item addresses into `prft_now`) and the prefetcher is started.
Dereferencing a null item (a row outside the list) has no defined result:
`none`. -/
def startPrefetch (v : ImageViewer) : Option ImageViewer :=
  if !v.prfter_running && !v.empty then
    match collect v.item (prefetchRows v.index v.count v.getImageCacheSize) with
    | none => none
    | some items =>
      some { v with
        prft_old := v.prft_now
        prft_now := items.map (fun it => it.ptr)
        prfter_plist := items.map (fun it => it.f)
        prfter_running := true }
  else
    some v

/-- `ImageViewer::showImages`, as far as the playlist and prefetch members
go: the call is recorded and `startPrefetch()` runs. Reading, decoding,
composing and scaling the shown files write `img_orgs`, `img_combined` and
`img_scaled` only. -/
def showImages (v : ImageViewer) : Option ImageViewer :=
  match v.startPrefetch with
  | none => none
  | some v1 => some { v1 with shows := v1.shows + 1 }

/-- `ImageViewer::releaseImages`: `img_count = 0; index = -1;`. -/
def releaseImages (v : ImageViewer) : ImageViewer :=
  { v with img_count := 0, index := -1 }

/-- One pass of `new PlayListItem(...); playlist->addItem(newitem);
img_count++;`. -/
def addItem (v : ImageViewer) (f : File) : ImageViewer :=
  { v with
    playlist := v.playlist ++ [⟨v.next_ptr, f⟩]
    img_count := v.img_count + 1
    next_ptr := v.next_ptr + 1 }

/-- `ImageViewer::openFilesAndDirs(paths, level)`. The walk over files,
archives and directories is summarised by its outcome `found`: the files for
which an item is added, in order. With no path the function returns at once;
otherwise it ends with `if (!validIndex(index) && validIndex(0)) index = 0;`. -/
def openFilesAndDirs (paths : List String) (found : List File)
    (v : ImageViewer) : ImageViewer :=
  if paths.isEmpty then v
  else
    let v1 := found.foldl addItem v
    if !v1.validIndex v1.index && v1.validIndex 0 then { v1 with index := 0 } else v1

/-- `ImageViewer::openImages`. -/
def openImages (paths : List String) (found : List File)
    (v : ImageViewer) : Option ImageViewer :=
  let req_refresh : Bool :=
    v.countShowImages == 0 || (v.isRightbindingMode && v.countShowImages != 2)
  let v1 := v.openFilesAndDirs paths found
  if req_refresh && decide (v1.countShowImages > 0) then
    showImages { v1 with index := 0 }
  else
    some v1

/-- `ImageViewer::clearPlaylist`: both prefetch lists are cleared, every item
is deleted and the images are released. -/
def clearPlaylist (v : ImageViewer) : ImageViewer :=
  releaseImages { v with prft_old := [], prft_now := [], playlist := [] }

/-- `ImageViewer::setSpreadMode`. -/
def setSpreadMode (m : Bool) (v : ImageViewer) : Option ImageViewer :=
  if m != v.spread_view then showImages { v with spread_view := m } else some v

/-- `ImageViewer::setRightbindingMode`. -/
def setRightbindingMode (m : Bool) (v : ImageViewer) : Option ImageViewer :=
  if m != v.rightbinding then
    let v1 := { v with rightbinding := m }
    if !v1.empty then showImages v1 else some v1
  else some v

/-- `ImageViewer::menu_open_triggered`; `litem` is `playlist->selectedItems()`. -/
def menu_open_triggered (litem : List Nat) (v : ImageViewer) : Option ImageViewer :=
  match litem with
  | [] => some v
  | p :: _ => showImages { v with index := v.row p }

/-- `ImageViewer::nextImages`. -/
def nextImages (v : ImageViewer) : Option ImageViewer :=
  if v.empty then some v
  else showImages { v with index := (v.index + v.countShowImages).tmod v.count }

/-- `ImageViewer::previousImages`. -/
def previousImages (v : ImageViewer) : Option ImageViewer :=
  if v.empty then some v
  else
    let index := (v.index - v.countShowImages).tmod v.count
    let index := if index < 0 then index + v.count else index
    showImages { v with index := index }

/-- The body of the loop of `playlistItemRemove` for the item at address `p`:
`cs` are the addresses shown when the call began, `current` the address under
the cursor at that time; the state carries the flag `contains`. -/
def removeStep (cs : List (Option Nat)) (current : Option Nat)
    (acc : ImageViewer × Bool) (p : Nat) : ImageViewer × Bool :=
  let v := acc.1
  let acc1 : ImageViewer × Bool :=
    if cs.contains (some p) then
      (if current == some p then { v with index := max (v.index - 1) 0 } else v, true)
    else
      (if v.row p < v.index then { v with index := v.index - 1 } else v, acc.2)
  let v1 := acc1.1
  ({ v1 with
      prft_old := v1.prft_old.erase p
      prft_now := v1.prft_now.erase p
      playlist := v1.playlist.eraseP (fun it => it.ptr == p)
      img_count := v1.img_count - 1 }, acc1.2)

/-- `ImageViewer::playlistItemRemove`; `items` are the addresses of the items
to delete. -/
def playlistItemRemove (items : List Nat) (v : ImageViewer) : Option ImageViewer :=
  if items.isEmpty then some v
  else
    let current : Option Nat :=
      if v.validIndex v.index then (v.item v.index).map PlayListItem.ptr else none
    let len := min v.count v.countShowImages
    let cs : List (Option Nat) :=
      (forRange 0 len).map
        (fun i => (v.item ((v.index + i).tmod v.count)).map PlayListItem.ptr)
    let acc := items.foldl (removeStep cs current) (v, false)
    if acc.1.empty then some (releaseImages acc.1)
    else if acc.2 then showImages acc.1
    else some acc.1

/-- The operations on the playlist named by the cursor invariant, with the
data each one receives from the toolkit or the file system. -/
inductive Op where
  | openImages (paths : List String) (found : List File)
  | nextImages
  | previousImages
  | menu_open_triggered (litem : List Nat)
  | playlistItemRemove (items : List Nat)
  | clearPlaylist
  | setSpreadMode (m : Bool)
  | setRightbindingMode (m : Bool)
  deriving Repr

/-- Run one operation. -/
def step (v : ImageViewer) : Op → Option ImageViewer
  | Op.openImages paths found => v.openImages paths found
  | Op.nextImages => v.nextImages
  | Op.previousImages => v.previousImages
  | Op.menu_open_triggered litem => v.menu_open_triggered litem
  | Op.playlistItemRemove items => v.playlistItemRemove items
  | Op.clearPlaylist => some v.clearPlaylist
  | Op.setSpreadMode m => v.setSpreadMode m
  | Op.setRightbindingMode m => v.setRightbindingMode m

/-- Run a sequence of operations from a state. -/
def run (v : ImageViewer) : List Op → Option ImageViewer
  | [] => some v
  | op :: ops =>
    match v.step op with
    | none => none
    | some v1 => v1.run ops

/-- The playlist cursor invariant: an empty playlist with cursor `-1`, or a
cursor inside `[0, N)`. -/
def CursorInv (v : ImageViewer) : Prop :=
  (v.count = 0 ∧ v.index = -1) ∨ (0 ≤ v.index ∧ v.index < v.count)

instance (v : ImageViewer) : Decidable v.CursorInv := by
  unfold CursorInv; infer_instance

end ImageViewer

/-! ## Pixels and images -/

/-- A `QRgb`: an ARGB quadruplet `0xAARRGGBB`. -/
abbrev QRgb := Nat

/-- `qRed(rgb)`: `(rgb >> 16) & 0xff`. -/
def qRed (rgb : QRgb) : Int := ((rgb / 65536 % 256 : Nat) : Int)

/-- `qGreen(rgb)`: `(rgb >> 8) & 0xff`. -/
def qGreen (rgb : QRgb) : Int := ((rgb / 256 % 256 : Nat) : Int)

/-- `qBlue(rgb)`: `rgb & 0xff`. -/
def qBlue (rgb : QRgb) : Int := ((rgb % 256 : Nat) : Int)

/-- `qAlpha(rgb)`: `rgb >> 24`. -/
def qAlpha (rgb : QRgb) : Int := ((rgb / 16777216 : Nat) : Int)

/-- `qRgba(r, g, b, a)`:
`((a & 0xff) << 24) | ((r & 0xff) << 16) | ((g & 0xff) << 8) | (b & 0xff)`. -/
def qRgba (r g b a : Int) : QRgb :=
  (a % 256).toNat * 16777216 + (r % 256).toNat * 65536 + (g % 256).toNat * 256
    + (b % 256).toNat

/-- The conversion of a `double` to `int`: truncation toward zero. -/
def toInt (q : ℚ) : Int := if 0 ≤ q then ⌊q⌋ else ⌈q⌉

/-- A `QImage` of format ARGB32: width, height and the pixel buffer returned
by `bits()`, row-major (pixel `(x, y)` at offset `x + y * width`). -/
structure QImage where
  width : Nat
  height : Nat
  bits : List QRgb
  deriving DecidableEq, Repr

namespace QImage

/-- The null image `QImage()`. -/
def null : QImage := { width := 0, height := 0, bits := [] }

/-- The read `*(bits + i)` at an offset inside the buffer. -/
def peek (img : QImage) (i : Int) : QRgb := img.bits.getD i.toNat 0

/-- The pixel `(x, y)`: the buffer at offset `x + y * width`. -/
def pixel (img : QImage) (x y : Nat) : Option QRgb := img.bits[x + y * img.width]?

/-- An ARGB32 raster: the buffer holds `width * height` values of 32 bits. -/
def WF (img : QImage) : Prop :=
  img.bits.length = img.width * img.height ∧ ∀ p ∈ img.bits, p < 4294967296

end QImage

/-! ## `image.cpp`: the three resamplers -/

/-- The loop nest shared by the three resamplers,
`for (y = 0; y < nh; ++y) { for (x = 0; x < nw; ++x) *(nbits+x) = px(x, y);
nbits += nw; }`: the target buffer is filled row by row, left to right. -/
def raster (nw nh : Int) (px : Int → Int → QRgb) : List QRgb :=
  (List.range nh.toNat).flatMap (fun (y : Nat) =>
    (List.range nw.toNat).map (fun (x : Nat) => px (x : Int) (y : Int)))

/-- The function `nn` (nearest neighbour). -/
def nn (src : QImage) (s : ℚ) : QImage :=
  let w : Int := src.width
  let h : Int := src.height
  let nw : Int := toInt (w * s)
  let nh : Int := toInt (h * s)
  let x1 : Int := w - 1
  let y1 : Int := h - 1
  { width := nw.toNat
    height := nh.toNat
    bits := raster nw nh (fun x y =>
      let y0 : Int := min ⌊(y : ℚ) / s + 1 / 2⌋ y1 * w
      src.peek (y0 + min ⌊(x : ℚ) / s + 1 / 2⌋ x1)) }

/-- The table `icache[x]` of `bl`: `min(floor(x/s), w-1)`. -/
def blIcache (w : Int) (s : ℚ) (x : Int) : Int := min ⌊(x : ℚ) / s⌋ (w - 1)

/-- The table `dcache[x]` of `bl`: `x/s - floor(x/s)`. -/
def blDcache (s : ℚ) (x : Int) : ℚ := (x : ℚ) / s - (⌊(x : ℚ) / s⌋ : ℚ)

/-- The row offset `yi0` of `bl`: `min(yg, h1)*w`. -/
def blYi0 (w h : Int) (s : ℚ) (y : Int) : Int := min ⌊(y : ℚ) / s⌋ (h - 1) * w

/-- The row offset `yi1` of `bl`: `min(yg+1, h1)*w`. -/
def blYi1 (w h : Int) (s : ℚ) (y : Int) : Int := min (⌊(y : ℚ) / s⌋ + 1) (h - 1) * w

/-- The four offsets that `bl` reads for the output pixel `(x, y)`, in the
order `p00, p10, p01, p11`. -/
def blReads (w h : Int) (s : ℚ) (x y : Int) : List Int :=
  [ blIcache w s x + blYi0 w h s y,
    blIcache w s x + 1 + blYi0 w h s y,
    blIcache w s x + blYi1 w h s y,
    blIcache w s x + 1 + blYi1 w h s y ]

/-- The read `*(bits + i)` of `bl`, which may fall after the buffer: `past`
is the content of the memory outside the buffer. -/
def peekPast (past : Int → QRgb) (img : QImage) (i : Int) : QRgb :=
  if 0 ≤ i ∧ i.toNat < img.bits.length then img.bits.getD i.toNat 0 else past i

/-- One output pixel of `bl` (the body of the inner loop). -/
def blPixel (past : Int → QRgb) (src : QImage) (s : ℚ) (x y : Int) : QRgb :=
  let w : Int := src.width
  let h : Int := src.height
  let ty0 : ℚ := (y : ℚ) / s - (⌊(y : ℚ) / s⌋ : ℚ)
  let ty1 : ℚ := 1 - ty0
  let yi0 : Int := blYi0 w h s y
  let yi1 : Int := blYi1 w h s y
  let d : ℚ := blDcache s x
  let t1 : ℚ := (1 - d) * ty1
  let t2 : ℚ := (1 - d) * ty0
  let t3 : ℚ := d * ty1
  let t4 : ℚ := d * ty0
  let i : Int := blIcache w s x
  let p00 := peekPast past src (i + yi0)
  let p10 := peekPast past src (i + 1 + yi0)
  let p01 := peekPast past src (i + yi1)
  let p11 := peekPast past src (i + 1 + yi1)
  qRgba
    (toInt (t1 * qRed p00 + t2 * qRed p01 + t3 * qRed p10 + t4 * qRed p11))
    (toInt (t1 * qGreen p00 + t2 * qGreen p01 + t3 * qGreen p10 + t4 * qGreen p11))
    (toInt (t1 * qBlue p00 + t2 * qBlue p01 + t3 * qBlue p10 + t4 * qBlue p11))
    (toInt (t1 * qAlpha p00 + t2 * qAlpha p01 + t3 * qAlpha p10 + t4 * qAlpha p11))

/-- The function `bl` (bilinear). -/
def bl (past : Int → QRgb) (src : QImage) (s : ℚ) : QImage :=
  let w : Int := src.width
  let h : Int := src.height
  let nw : Int := toInt (w * s)
  let nh : Int := toInt (h * s)
  { width := nw.toNat
    height := nh.toNat
    bits := raster nw nh (blPixel past src s) }

/-- The function `bicubic_h`. -/
def bicubic_h (t : ℚ) : ℚ :=
  let u : ℚ := |t|
  if u ≤ 1 then u * u * u - 2 * (u * u) + 1
  else if 1 < u ∧ u ≤ 2 then -(u * u * u) + 5 * (u * u) - 8 * u + 4
  else 0

/-- The function `bicubic_matmul`: `d1` and `d3` are the two weight vectors,
`d2 i j` the 4 by 4 table of channel values. -/
def bicubic_matmul (d1 : Nat → ℚ) (d2 : Nat → Nat → Int) (d3 : Nat → ℚ) : Int :=
  let temp : Nat → ℚ := fun i =>
    d1 0 * d2 0 i + d1 1 * d2 1 i + d1 2 * d2 2 i + d1 3 * d2 3 i
  toInt (temp 0 * d3 0 + temp 1 * d3 1 + temp 2 * d3 2 + temp 3 * d3 3)

/-- The weight vector `[h(1+f), h(f), h(1-f), h(2-f)]` of `bc`. -/
def bcWeights (f : ℚ) (k : Nat) : ℚ :=
  match k with
  | 0 => bicubic_h (1 + f)
  | 1 => bicubic_h f
  | 2 => bicubic_h (1 - f)
  | _ => bicubic_h (2 - f)

/-- One output pixel of `bc` (the body of the inner loop). -/
def bcPixel (src : QImage) (s : ℚ) (x y : Int) : QRgb :=
  let w : Int := src.width
  let h : Int := src.height
  let w1 : Int := w - 1
  let h1 : Int := h - 1
  let y0 : ℚ := (y : ℚ) / s
  let yg : Int := toInt y0
  let y2 : ℚ := y0 - yg
  let d1 := bcWeights y2
  let x0 : ℚ := (x : ℚ) / s
  let xg : Int := toInt x0
  let x2 : ℚ := x0 - xg
  let d3 := bcWeights x2
  let rgba : Nat → Nat → QRgb := fun i j =>
    src.peek (min (max (xg + j - 1) 0) w1 + min (max (yg + i - 1) 0) h1 * w)
  let dr : Nat → Nat → Int := fun i j => qRed (rgba i j)
  let dg : Nat → Nat → Int := fun i j => qGreen (rgba i j)
  let db : Nat → Nat → Int := fun i j => qBlue (rgba i j)
  let da : Nat → Nat → Int := fun i j => qAlpha (rgba i j)
  qRgba
    (min (max (bicubic_matmul d1 dr d3) 0) 255)
    (min (max (bicubic_matmul d1 dg d3) 0) 255)
    (min (max (bicubic_matmul d1 db d3) 0) 255)
    (min (max (bicubic_matmul d1 da d3) 0) 255)

/-- The function `bc` (bicubic). -/
def bc (src : QImage) (s : ℚ) : QImage :=
  let w : Int := src.width
  let h : Int := src.height
  let nw : Int := toInt (w * s)
  let nh : Int := toInt (h * s)
  { width := nw.toNat
    height := nh.toNat
    bits := raster nw nh (bcPixel src s) }

/-! ## The compositor `ImageViewer::imageCombine` -/

/-- The values taken by the counter of `for (int i = lo; i < hi; ++i)` over
non-negative bounds, run through a loop body that updates a state. -/
def natLoop {σ : Type} (lo hi : Nat) (body : Nat → σ → σ) (init : σ) : σ :=
  (List.range' lo (hi - lo)).foldl (fun st i => body i st) init

/-- A buffer cell after a store at its offset: the stored value, if the cell
exists. -/
def ovw (cell : Option QRgb) (v : QRgb) : Option QRgb := cell.map (fun _ => v)

/-- The colour `qRgba(255, 255, 255, 255)`. -/
def white : QRgb := qRgba 255 255 255 255

/-- The store `*(dst_bits + i) = v`. -/
def poke (dst : List QRgb) (i : Nat) (v : QRgb) : List QRgb := dst.set i v

/-- The body of the loop of `imageCombine` over the images, for the image
`temp` placed at column `sw` of a composite `cw` wide and `ch` high: the band
above the image is filled with white, the image is copied, the band below is
filled with white. -/
def paint (cw ch sw : Nat) (temp : QImage) (dst : List QRgb) : List QRgb :=
  let tw := temp.width
  let th := temp.height
  let h2 := (ch - th) / 2
  let d1 := natLoop 0 h2 (fun y d =>
    natLoop 0 tw (fun x d => poke d (x + sw + y * cw) white) d) dst
  let d2 := natLoop 0 th (fun y d =>
    natLoop 0 tw (fun x d =>
      poke d (x + sw + (y + h2) * cw) (temp.bits.getD (x + y * tw) 0)) d) d1
  natLoop (th + h2) ch (fun y d =>
    natLoop 0 tw (fun x d => poke d (x + sw + y * cw) white) d) d2

/-- The loop of `imageCombine` over the images: each one is painted at the
running column `sw`, which then moves right by its width. -/
def paintAll (cw ch : Nat) (vec : List QImage) (sw : Nat) (dst : List QRgb) :
    List QRgb :=
  (vec.foldl (fun (st : List QRgb × Nat) temp =>
    (paint cw ch st.2 temp st.1, st.2 + temp.width)) (dst, sw)).1

/-- The width `cw` computed by the first loop of `imageCombine`. -/
def combinedWidth (imgs : List QImage) : Nat :=
  imgs.foldl (fun cw temp => cw + temp.width) 0

/-- The height `ch` computed by the first loop of `imageCombine`. -/
def combinedHeight (imgs : List QImage) : Nat :=
  imgs.foldl (fun ch temp => max ch temp.height) 0

/-- `ImageViewer::imageCombine`, returning the new `img_combined`.
`rightbinding` is `isRightbindingMode()`; `junk` is the content of the fresh,
uninitialised buffer of `QImage(cw, ch, QImage::Format_ARGB32)`. -/
def imageCombine (rightbinding : Bool) (junk : Nat → QRgb) (imgs : List QImage) :
    QImage :=
  let cw := combinedWidth imgs
  let ch := combinedHeight imgs
  let vec := if rightbinding then imgs.reverse else imgs
  { width := cw
    height := ch
    bits := paintAll cw ch vec 0 ((List.range (cw * ch)).map junk) }

/-! ## The scaler `ImageViewer::imageScale` -/

/-- The enum `ImageViewer::ViewMode`. -/
inductive ViewMode where
  | FULLSIZE
  | FIT_WINDOW
  | FIT_IMAGE
  | CUSTOM_SCALE
  deriving DecidableEq, Repr

/-- The enum `ImageViewer::InterpolationMode`. -/
inductive InterpolationMode where
  | NearestNeighbor
  | Bilinear
  | Bicubic
  deriving DecidableEq, Repr

/-- `qFuzzyCompare(double p1, double p2)`:
`qAbs(p1 - p2) * 1000000000000. <= qMin(qAbs(p1), qAbs(p2))`. -/
def qFuzzyCompare (p1 p2 : ℚ) : Bool :=
  decide (|p1 - p2| * 1000000000000 ≤ min |p1| |p2|)

/-- The members of `ImageViewer` that `imageScale` reads or writes; `width`
and `height` are the size of the widget (`QWidget::width()`, `height()`). -/
structure Viewer where
  img_combined : QImage
  img_scaled : QImage
  scale_value : ℚ
  img_count : Int
  vmode : ViewMode
  imode : InterpolationMode
  width : Int
  height : Int
  deriving DecidableEq, Repr

/-- The scale chosen by `imageScale` (the local `scale` when it is stored into
`scale_value`). -/
def Viewer.chosenScale (v : Viewer) : ℚ :=
  if v.vmode = ViewMode.CUSTOM_SCALE then v.scale_value
  else if v.vmode = ViewMode.FULLSIZE then 1
  else
    let ws : ℚ :=
      if v.width < (v.img_combined.width : Int) then
        (v.width : ℚ) / ((v.img_combined.width : Int) : ℚ)
      else 1
    let hs : ℚ :=
      if v.height < (v.img_combined.height : Int) then
        (v.height : ℚ) / ((v.img_combined.height : Int) : ℚ)
      else 1
    if v.vmode = ViewMode.FIT_WINDOW then (if ws > hs then hs else ws)
    else if v.vmode = ViewMode.FIT_IMAGE then ws
    else 1

/-- `ImageViewer::imageScale`; `past` is the memory after the pixel buffer,
which `bl` may read. -/
def Viewer.imageScale (past : Int → QRgb) (v : Viewer) : Viewer :=
  if v.img_count == 0 then v
  else
    let v1 := { v with scale_value := v.chosenScale }
    if qFuzzyCompare v1.scale_value 1 then
      { v1 with img_scaled := v1.img_combined }
    else
      { v1 with img_scaled :=
          match v1.imode with
          | InterpolationMode.NearestNeighbor => nn v1.img_combined v1.scale_value
          | InterpolationMode.Bilinear => bl past v1.img_combined v1.scale_value
          | InterpolationMode.Bicubic => bc v1.img_combined v1.scale_value }

/-! ## Sample inputs -/

/-- Three raw image files. -/
def threeFiles : List File :=
  [File.ofRaw "a.png", File.ofRaw "b.png", File.ofRaw "c.png"]

/-- Open three files, switch to spread view, advance once (the cursor wraps
to the last row, the first row is shown beside it), then delete the item in
row 0 (address 0). -/
def wrapRemoveTrace : List ImageViewer.Op :=
  [ ImageViewer.Op.openImages ["a.png", "b.png", "c.png"] threeFiles,
    ImageViewer.Op.setSpreadMode true,
    ImageViewer.Op.nextImages,
    ImageViewer.Op.playlistItemRemove [0] ]

/-- Open three files, open the item in row 2 from the playlist menu, then
delete the selection made of the items in rows 2 and 1 (in that order), with
spread view off. -/
def multiRemoveTrace : List ImageViewer.Op :=
  [ ImageViewer.Op.openImages ["a.png", "b.png", "c.png"] threeFiles,
    ImageViewer.Op.menu_open_triggered [2],
    ImageViewer.Op.playlistItemRemove [2, 1] ]

/-- A playlist of ten raw files with the cursor on row 7, cache capacity 5
and an idle prefetcher. -/
def tenItems : ImageViewer :=
  { ImageViewer.init with
    playlist := (List.range 10).map (fun i => ⟨i, File.ofRaw (toString i)⟩)
    img_count := 10
    index := 7
    cache_maxCost := 5
    next_ptr := 10 }

/-- A page of one colour, `w` wide and `h` high. -/
def page (w h : Nat) (v : QRgb) : QImage :=
  { width := w, height := h, bits := List.replicate (w * h) v }

/-- A 2 by 2 image with four different pixels. -/
def img22 : QImage :=
  { width := 2, height := 2, bits := [4278190080, 4278190335, 4278255360, 4294901760] }

/-- A 2 by 1 image. -/
def img21 : QImage := { width := 2, height := 1, bits := [4278190335, 4294901760] }

/-- A 1 by 3 image. -/
def img13 : QImage := { width := 1, height := 3, bits := [4278190080, 4278255360, 4294901760] }

/-- A viewer in `FIT_WINDOW` mode holding a 100 by 40 composite in a widget of
200 by 200, with a stale scale and a stale scaled image. -/
def fitViewer : Viewer :=
  { img_combined := page 100 40 4278190335
    img_scaled := QImage.null
    scale_value := 3
    img_count := 2
    vmode := ViewMode.FIT_WINDOW
    imode := InterpolationMode.Bilinear
    width := 200
    height := 200 }

/-- A raw file whose path has a slash. -/
def rawAB : File := File.ofRaw "a/b"

/-- The entry `b` of the archive `a`. -/
def archiveAB : File := File.ofArchive "a" [98]

/-- The entry `c` of the archive `a/b`. -/
def archiveABC1 : File := File.ofArchive "a/b" [99]

/-- The entry `b/c` of the archive `a`. -/
def archiveABC2 : File := File.ofArchive "a" [98, 47, 99]

/-- The entry `c` of the archive `a`. -/
def archiveAC : File := File.ofArchive "a" [99]

/-- A viewer in `FIT_WINDOW` mode holding a 100 by 40 composite in a widget of
50 by 50. -/
def halfViewer : Viewer :=
  { img_combined := page 100 40 4278190335
    img_scaled := QImage.null
    scale_value := 3
    img_count := 2
    vmode := ViewMode.FIT_WINDOW
    imode := InterpolationMode.NearestNeighbor
    width := 50
    height := 50 }

/-- A playlist of three raw files in spread view with the cursor on the last
row (rows 2 and 0 are shown), cache capacity 20 and a busy prefetcher. -/
def threeSpread : ImageViewer :=
  { ImageViewer.init with
    playlist := (List.range 3).map (fun i => ⟨i, File.ofRaw (toString i)⟩)
    img_count := 3
    index := 2
    spread_view := true
    prfter_running := true
    next_ptr := 3 }

/-! ## The byte cache, the mutex and the reads -/

/-- One node of the `QCache<QString, QByteArray>`: the key, the object
pointer (`none` is the null pointer) and the cost. -/
structure CacheNode where
  key : String
  obj : Option QByteArray
  cost : Int
  deriving DecidableEq, Repr

/-- The `QCache<QString, QByteArray> cache`: the maximum cost `mx` and the
nodes from the most recently used to the least recently used. -/
structure QCache where
  mx : Int
  nodes : List CacheNode
  deriving DecidableEq, Repr

namespace QCache

/-- `QCache::maxCost`. -/
def maxCost (c : QCache) : Int := c.mx

/-- The sum of the costs of a list of nodes. -/
def cost (ns : List CacheNode) : Int := (ns.map (fun n => n.cost)).sum

/-- `QCache::totalCost`. -/
def totalCost (c : QCache) : Int := cost c.nodes

/-- `QCache::contains`. -/
def contains (c : QCache) (key : String) : Bool := c.nodes.any (fun n => n.key == key)

/-- The loop of `QCache::trim(m)` on the nodes listed from the least recently
used on: a node is unlinked as long as the total cost is above `m`. -/
def trimLru (m : Int) : List CacheNode → List CacheNode
  | [] => []
  | n :: rest => if cost (n :: rest) > m then trimLru m rest else n :: rest

/-- `QCache::trim(m)`. -/
def trim (m : Int) (c : QCache) : QCache :=
  { c with nodes := (trimLru m c.nodes.reverse).reverse }

/-- `QCache::remove(key)`. -/
def remove (c : QCache) (key : String) : QCache :=
  { c with nodes := c.nodes.filter (fun n => !(n.key == key)) }

/-- `QCache::insert(key, object, cost)`: the old node of the key is removed;
an object dearer than `mx` is deleted at once; otherwise room is made and the
node is linked in front. -/
def insert (c : QCache) (key : String) (obj : Option QByteArray) (acost : Int) : QCache :=
  let c1 := c.remove key
  if acost > c1.mx then c1
  else
    let c2 := c1.trim (c1.mx - acost)
    { c2 with nodes := ⟨key, obj, acost⟩ :: c2.nodes }

/-- `QCache::operator[](key)`: the object pointer of the key (the null
pointer `none` when there is no node); the node moves to the front. -/
def object (c : QCache) (key : String) : QCache × Option QByteArray :=
  match c.nodes.find? (fun n => n.key == key) with
  | none => (c, none)
  | some n => ({ c with nodes := n :: c.nodes.filter (fun n => !(n.key == key)) }, n.obj)

/-- `QCache::setMaxCost(m)`. -/
def setMaxCost (c : QCache) (m : Int) : QCache := trim m { c with mx := m }

/-- The cache as this program fills it: every node costs at least 1 and the
total cost is within `mx`. -/
def Inv (c : QCache) : Prop := (∀ n ∈ c.nodes, 1 ≤ n.cost) ∧ c.totalCost ≤ c.mx

end QCache

/-- The kinds of access that `readData`, `setImageCacheSize` and
`Prefetcher::run` make to the cache and to the file system. -/
inductive AccessKind where
  | contains
  | lookup
  | insert
  | setMaxCost
  | maxCost
  | readFile
  deriving DecidableEq, Repr

/-- One access, with whether the running thread held `prft_mutex` then. -/
structure Access where
  kind : AccessKind
  held : Bool
  deriving DecidableEq, Repr

/-- The cache together with the mutex as the running thread sees it (`held`)
and the record of the accesses made so far. -/
structure Store where
  cache : QCache
  held : Bool
  log : List Access
  deriving DecidableEq, Repr

namespace Store

/-- `prft_mutex.lock()`. -/
def lock (s : Store) : Store := { s with held := true }

/-- `prft_mutex.unlock()`. -/
def unlock (s : Store) : Store := { s with held := false }

/-- Record one access. -/
def access (s : Store) (k : AccessKind) : Store :=
  { s with log := s.log ++ [⟨k, s.held⟩] }

end Store

/-- The file system as the two static readers see it: `readImageData(f)` and
`readArchiveData(f)` give the bytes, or the null pointer `none` when the file
or archive cannot be opened or the entry is not found. -/
structure Disk where
  readImageData : File → Option QByteArray
  readArchiveData : File → Option QByteArray

/-- The outcome of `readData`: a null pointer was dereferenced on the way,
the null pointer is returned, or a fresh buffer is returned. -/
inductive Fetched where
  | crash
  | null
  | bytes (b : QByteArray)
  deriving DecidableEq, Repr

/-- `ImageViewer::readData`. -/
def readData (disk : Disk) (f : File) (s : Store) : Store × Fetched :=
  let key := f.createKey
  let s1 := s.lock
  let s2 := s1.access AccessKind.contains
  let c := s2.cache.contains key
  let s3 := s2.unlock
  if c then
    let s4 := s3.lock
    let s5 := s4.access AccessKind.lookup
    let r := s5.cache.object key
    match r.2 with
    | none => ({ s5 with cache := r.1 }, Fetched.crash)
    | some b => (Store.unlock { s5 with cache := r.1 }, Fetched.bytes b)
  else
    match f.fileType with
    | FileType.ARCHIVE =>
      let s4 := s3.access AccessKind.readFile
      match disk.readArchiveData f with
      | none => (s4, Fetched.null)
      | some b =>
        let s5 := s4.access AccessKind.maxCost
        if s5.cache.maxCost > 0 then
          let s6 := s5.lock
          let s7 := s6.access AccessKind.insert
          (Store.unlock { s7 with cache := s7.cache.insert key (some b) 1 }, Fetched.bytes b)
        else (s5, Fetched.bytes b)
    | FileType.RAW =>
      let s4 := s3.access AccessKind.readFile
      match disk.readImageData f with
      | none => (s4, Fetched.null)
      | some b =>
        let s5 := s4.access AccessKind.maxCost
        if s5.cache.maxCost > 0 then
          let s6 := s5.lock
          let s7 := s6.access AccessKind.insert
          (Store.unlock { s7 with cache := s7.cache.insert key (some b) 1 }, Fetched.bytes b)
        else (s5, Fetched.bytes b)
    | FileType.INVALID => (s3, Fetched.null)

/-- The cache side of `ImageViewer::setImageCacheSize`:
`prft_mutex.lock(); cache.setMaxCost(cost); prft_mutex.unlock();`. -/
def setImageCacheSize (cost : Int) (s : Store) : Store :=
  let s1 := s.lock
  let s2 := s1.access AccessKind.setMaxCost
  Store.unlock { s2 with cache := s2.cache.setMaxCost cost }

/-- The loop of `Prefetcher::run` over `plist`, from pass `k` on; `termAt k`
is the value of `termsig` (set by `sendTermSig` on the other thread) when pass
`k` polls it. -/
def prefetchLoop (disk : Disk) (termAt : Nat → Bool) : Nat → List File → Store → Store
  | _, [], s => s
  | k, f :: rest, s =>
    if termAt k then s
    else
      let key := f.createKey
      let s1 := s.lock
      let s2 := s1.access AccessKind.contains
      let c := s2.cache.contains key
      let s3 := s2.unlock
      if !c then
        let s4 := s3.access AccessKind.readFile
        let data :=
          if f.fileType = FileType.ARCHIVE then disk.readArchiveData f
          else disk.readImageData f
        let s5 := s4.lock
        let s6 := s5.access AccessKind.insert
        let s7 := Store.unlock { s6 with cache := s6.cache.insert key data 1 }
        prefetchLoop disk termAt (k + 1) rest s7
      else prefetchLoop disk termAt (k + 1) rest s3

/-- `ImageViewer::Prefetcher::run`, as one uninterrupted pass. -/
def prefetcherRun (disk : Disk) (termAt : Nat → Bool) (plist : List File) (s : Store) :
    Store :=
  let s1 := s.access AccessKind.maxCost
  if s1.cache.maxCost == 0 then s1
  else prefetchLoop disk termAt 0 plist s1

/-! ## `showImages` with its reads -/

/-- `ImageViewer::currentFile(i)`: the file of the item in row
`currentIndex(i)`, `File()` when that row is not valid; `none` when the item
pointer of a valid row is null. -/
def ImageViewer.currentFile (v : ImageViewer) (i : Int) : Option File :=
  let ti := v.currentIndex i
  if v.validIndex ti then (v.item ti).map PlayListItem.f else some File.invalid

/-- `ImageViewer::currentFiles`. -/
def ImageViewer.currentFiles (v : ImageViewer) : Option (List File) :=
  collect v.currentFile (forRange 0 (min v.count v.countShowImages))

/-- The first loop of `showImages`: for each file, `readData`, then
`temp.loadFromData(*data)`, `delete data`, and the image converted to ARGB32
is appended to `img_orgs`. `decode` is `QImage::loadFromData` followed by the
conversion (the null image when the bytes are no image). Dereferencing the
null pointer returned by `readData` has no defined result: `none`. -/
def loadShown (disk : Disk) (decode : QByteArray → QImage) :
    List File → Store → Option (Store × List QImage)
  | [], s => some (s, [])
  | f :: rest, s =>
    match readData disk f s with
    | (_, Fetched.crash) => none
    | (_, Fetched.null) => none
    | (s1, Fetched.bytes b) =>
      match loadShown disk decode rest s1 with
      | none => none
      | some (s2, imgs) => some (s2, decode b :: imgs)

/-- The whole viewer: the playlist and prefetch members, the members of the
scaler, the cache with its mutex, and `img_orgs`. -/
structure Session where
  list : ImageViewer
  view : Viewer
  store : Store
  img_orgs : List QImage

/-- `ImageViewer::showImages` on the whole viewer: the shown files are read
and decoded, `startPrefetch()` runs, the images are combined and the composite
is scaled. `junk` is the content of the fresh composite buffer, `past` the
memory after the pixel buffer read by `bl`. -/
def Session.showImages (disk : Disk) (decode : QByteArray → QImage)
    (junk : Nat → QRgb) (past : Int → QRgb) (s : Session) : Option Session :=
  match s.list.currentFiles with
  | none => none
  | some files =>
    match loadShown disk decode files s.store with
    | none => none
    | some (store1, imgs) =>
      match s.list.showImages with
      | none => none
      | some list1 =>
        let combined := imageCombine list1.isRightbindingMode junk imgs
        let view1 : Viewer :=
          { s.view with img_combined := combined, img_count := list1.img_count }
        some { list := list1
               view := view1.imageScale past
               store := store1
               img_orgs := imgs }

/-! ## More sample inputs -/

/-- A file system on which nothing can be read. -/
def noDisk : Disk :=
  { readImageData := fun _ => none
    readArchiveData := fun _ => none }

/-- A file system holding the raw file `a.png` with three bytes and nothing
else. -/
def oneFileDisk : Disk :=
  { readImageData := fun f => if f.file_path = "a.png" then some [1, 2, 3] else none
    readArchiveData := fun _ => none }

/-- An empty cache of the given capacity, mutex free, nothing recorded. -/
def emptyStore (mx : Int) : Store :=
  { cache := { mx := mx, nodes := [] }, held := false, log := [] }

/-- The raw file `missing.png`. -/
def missingFile : File := File.ofRaw "missing.png"

/-- The raw file `a.png`. -/
def fileA : File := File.ofRaw "a.png"

/-- A decoder that turns every buffer into the same 2 by 1 image. -/
def sampleDecode (_ : QByteArray) : QImage := img21

/-- A viewer showing the single item `missing.png`, with an empty cache of
capacity 20. -/
def missingSession : Session :=
  { list :=
      { ImageViewer.init with
        playlist := [⟨0, missingFile⟩]
        img_count := 1
        index := 0
        next_ptr := 1 }
    view := fitViewer
    store := emptyStore 20
    img_orgs := [] }

/-- The same viewer showing the readable item `a.png`. -/
def readableSession : Session :=
  { list :=
      { ImageViewer.init with
        playlist := [⟨0, fileA⟩]
        img_count := 1
        index := 0
        next_ptr := 1 }
    view := fitViewer
    store := emptyStore 20
    img_orgs := [] }

/-- A pointer returned by a reader, as an outcome of `readData`. -/
def Fetched.ofPtr : Option QByteArray → Fetched
  | none => Fetched.null
  | some b => Fetched.bytes b

/-- What the file system gives for a file: `readArchiveData` for an archive
entry, `readImageData` for a raw file, the null pointer otherwise. -/
def Disk.read (disk : Disk) (f : File) : Option QByteArray :=
  match f.fileType with
  | FileType.ARCHIVE => disk.readArchiveData f
  | FileType.RAW => disk.readImageData f
  | FileType.INVALID => none

/-- A playlist with the single item `a.png` whose cache capacity is 0, with an
idle prefetcher. -/
def zeroCapacityViewer : ImageViewer :=
  { ImageViewer.init with
    playlist := [⟨0, fileA⟩]
    img_count := 1
    index := 0
    cache_maxCost := 0
    next_ptr := 1 }

/-! ## The mutex discipline -/

/-- The value `P(a, b)` of the specification: the `QRgb` at offset
`a + b * W` from the start of the pixel buffer of `S`. -/
def memAt (past : Int → QRgb) (S : QImage) (a b : Int) : QRgb :=
  peekPast past S (a + b * (S.width : Int))

/-- The bilinear value of one channel `chan` at the output pixel `(x, y)`, in
the words of the specification: with `u = x/s`, `v = y/s`,
`i = min(floor u, W-1)`, `du = u - floor u`, `dv = v - floor v`,
`j0 = min(floor v, H-1)` and `j1 = min(floor v + 1, H-1)`, the truncation of
`(1-du)(1-dv) P(i,j0) + (1-du) dv P(i,j1) + du (1-dv) P(i+1,j0) + du dv P(i+1,j1)`. -/
def blSpecChannel (chan : QRgb → Int) (P : Int → Int → QRgb) (W H : Int) (s : ℚ)
    (x y : Int) : Int :=
  let u : ℚ := (x : ℚ) / s
  let v : ℚ := (y : ℚ) / s
  let i : Int := min ⌊u⌋ (W - 1)
  let du : ℚ := u - (⌊u⌋ : ℚ)
  let dv : ℚ := v - (⌊v⌋ : ℚ)
  let j0 : Int := min ⌊v⌋ (H - 1)
  let j1 : Int := min (⌊v⌋ + 1) (H - 1)
  toInt ((1 - du) * (1 - dv) * (chan (P i j0) : ℚ) + (1 - du) * dv * (chan (P i j1) : ℚ)
    + du * (1 - dv) * (chan (P (i + 1) j0) : ℚ) + du * dv * (chan (P (i + 1) j1) : ℚ))

/-- A playlist of four raw files with the cursor on row 2, spread view off,
cache capacity 20 and a busy prefetcher. -/
def fourItems : ImageViewer :=
  { ImageViewer.init with
    playlist := (List.range 4).map (fun i => ⟨i, File.ofRaw (toString i)⟩)
    img_count := 4
    index := 2
    prfter_running := true
    next_ptr := 4 }

/-! ## Lemmas: the prefetch window -/

theorem collect_eq_some {α β : Type} (f : α → Option β) (g : α → β) :
    ∀ (l : List α), (∀ x ∈ l, f x = some (g x)) → collect f l = some (l.map g)
  | [], _ => rfl
  | a :: as, h => by
    have ha : f a = some (g a) := h a (List.mem_cons_self a as)
    have ih := collect_eq_some f g as (fun x hx => h x (List.mem_cons_of_mem a hx))
    simp only [collect, ha, ih, List.map_cons]

theorem forRange_length (lo hi : Int) : (forRange lo hi).length = (hi - lo).toNat := by
  simp only [forRange, List.length_map, List.length_range]

theorem forRange_getElem (lo hi : Int) (k : Nat) (h : k < (forRange lo hi).length) :
    (forRange lo hi)[k] = lo + (k : Int) := by
  simp only [forRange, List.getElem_map, List.getElem_range]

theorem mem_forRange {lo hi i : Int} (h : i ∈ forRange lo hi) : lo ≤ i ∧ i < hi := by
  simp only [forRange, List.mem_map, List.mem_range] at h
  obtain ⟨k, hk, rfl⟩ := h
  have : (k : Int) < hi - lo := by
    have := Int.lt_toNat.mp hk
    exact this
  omega

/-- The truncated remainder leaves a small negative dividend unchanged. -/
theorem tmod_neg_small (a c : Int) (h1 : -c < a) (h2 : a < 0) : a.tmod c = a := by
  obtain ⟨n, rfl⟩ : ∃ n : Nat, a = Int.negSucc n := ⟨(-a - 1).toNat, by
    rw [Int.negSucc_eq]; omega⟩
  obtain ⟨m, rfl⟩ : ∃ m : Nat, c = (m : Int) := ⟨c.toNat, by omega⟩
  show -Int.ofNat (n.succ % m) = Int.negSucc n
  have : n.succ % m = n.succ := Nat.mod_eq_of_lt (by
    rw [Int.negSucc_eq] at h1; omega)
  rw [this, Int.negSucc_eq]; simp

/-- The adjusted truncated remainder of `startPrefetch` is the non-negative
residue, as long as the dividend is above `-c`. -/
theorem prefetchRow_eq_emod (index c i : Int) (hc : 0 < c) (hlo : -c < index + i) :
    ImageViewer.prefetchRow index c i = (index + i) % c := by
  unfold ImageViewer.prefetchRow
  by_cases hn : 0 ≤ index + i
  · have h1 : (index + i).tmod c = (index + i) % c := Int.tmod_eq_emod hn (le_of_lt hc)
    have h2 : 0 ≤ (index + i) % c := Int.emod_nonneg _ (ne_of_gt hc)
    simp only [h1]
    rw [if_neg (by omega)]
  · have hneg : index + i < 0 := by omega
    have h1 : (index + i).tmod c = index + i := tmod_neg_small _ _ hlo hneg
    have h2 : (index + i) % c = index + i + c := by
      have : (index + i + c) % c = index + i + c := Int.emod_eq_of_lt (by omega) (by omega)
      rw [← this]
      simp
    simp only [h1]
    rw [if_pos hneg, h2]

theorem item_isSome_of_lt (v : ImageViewer) (ti : Int) (h0 : 0 ≤ ti)
    (h1 : ti < (v.playlist.length : Int)) :
    v.item ti = some ((v.item ti).getD ⟨0, File.invalid⟩) := by
  have hlt : ti.toNat < v.playlist.length := by omega
  simp only [ImageViewer.item, if_pos h0, List.getElem?_eq_getElem hlt, Option.getD_some]

theorem prefetchRows_eq (c N K : Int) (hN : 1 ≤ N) (hc0 : 0 ≤ c) (hK : 0 ≤ K) :
    ImageViewer.prefetchRows c N K =
      (forRange (-(min K N / 2 - 1)) (min K N / 2 + min K N % 2 + 1)).map
        (fun i => (c + i) % N) := by
  have hp : 0 ≤ min K N := le_min hK (by omega)
  have hpN : min K N ≤ N := min_le_right _ _
  unfold ImageViewer.prefetchRows
  simp only [Int.tdiv_eq_ediv hp (by decide : (0 : Int) ≤ 2),
    Int.tmod_eq_emod hp (by decide : (0 : Int) ≤ 2)]
  apply List.map_congr_left
  intro i hi
  have hb := (mem_forRange hi).1
  exact prefetchRow_eq_emod c N i (by omega) (by omega)

/-- C1: with the prefetcher idle, a playlist of `N ≥ 1` items, cursor `c` in
`[0, N)` and cache capacity `K ≥ 0`, `startPrefetch` returns and schedules
exactly `r + l` files, the `k`-th being the file of the playlist item in row
`(c + (-l + k)) mod N` (non-negative residue), where `plen = min K N`,
`l = plen/2 - 1` and `r = plen/2 + plen%2 + 1`; for `N = 10`, `K = 5`, `c = 7`
the rows are `6, 7, 8, 9, 0`. -/
theorem startPrefetch_schedules_window (v : ImageViewer) (N c K plen l r : Int)
    (hN : 1 ≤ N) (hc0 : 0 ≤ c) (hcN : c < N) (hK : 0 ≤ K)
    (hlen : (v.playlist.length : Int) = N) (hcount : v.img_count = N)
    (hidx : v.index = c) (hcap : v.cache_maxCost = K)
    (hidle : v.prfter_running = false)
    (hplen : plen = min K N) (hl : l = plen / 2 - 1)
    (hr : r = plen / 2 + plen % 2 + 1) :
    (∃ v', v.startPrefetch = some v' ∧
      v'.prfter_plist.length = (r + l).toNat ∧
      ∀ k : Nat, k < (r + l).toNat →
        v'.prfter_plist[k]? =
          (v.item ((c + (-l + (k : Int))) % N)).map PlayListItem.f) ∧
    ImageViewer.prefetchRows 7 10 5 = [6, 7, 8, 9, 0] := by
  refine ⟨?_, by decide⟩
  subst hplen hl hr
  have hrows := prefetchRows_eq c N K hN hc0 hK
  have hne : v.empty = false := by
    simp only [ImageViewer.empty, ImageViewer.count, hcount]
    exact beq_false_of_ne (by omega)
  have hcol : collect v.item (ImageViewer.prefetchRows c N K) =
      some ((ImageViewer.prefetchRows c N K).map
        (fun ti => (v.item ti).getD ⟨0, File.invalid⟩)) := by
    apply collect_eq_some
    intro ti hti
    rw [hrows] at hti
    simp only [List.mem_map] at hti
    obtain ⟨i, _, rfl⟩ := hti
    exact item_isSome_of_lt v _ (Int.emod_nonneg _ (by omega))
      (by rw [hlen]; exact Int.emod_lt_of_pos _ (by omega))
  refine ⟨_, by
    simp only [ImageViewer.startPrefetch, hidle, hne, ImageViewer.count,
      ImageViewer.getImageCacheSize, hcount, hidx, hcap, hcol]
    rfl, ?_, ?_⟩
  · simp only [List.length_map, hrows, forRange_length]
    congr 1
    omega
  · intro k hk
    have hk2 : k < (forRange (-(min K N / 2 - 1)) (min K N / 2 + min K N % 2 + 1)).length := by
      rw [forRange_length]
      have : min K N / 2 + min K N % 2 + 1 - -(min K N / 2 - 1)
          = min K N / 2 + min K N % 2 + 1 + (min K N / 2 - 1) := by omega
      rw [this]; exact hk
    have hk3 : k < (List.map PlayListItem.f
        ((ImageViewer.prefetchRows c N K).map
          (fun ti => (v.item ti).getD ⟨0, File.invalid⟩))).length := by
      simp only [List.length_map, hrows]; exact hk2
    rw [List.getElem?_eq_getElem hk3]
    simp only [List.getElem_map, hrows, forRange_getElem]
    rw [item_isSome_of_lt v ((c + (-(min K N / 2 - 1) + (k : Int))) % N)
      (Int.emod_nonneg _ (by omega))
      (by rw [hlen]; exact Int.emod_lt_of_pos _ (by omega))]
    simp only [Option.map_some', Option.getD_some]

/-- C1, at a concrete input: ten items, cursor 7, capacity 5 (so `plen = 5`,
`l = 1`, `r = 4`). -/
theorem startPrefetch_schedules_window_witness :
    (∃ v', tenItems.startPrefetch = some v' ∧
      v'.prfter_plist.length = ((4 : Int) + 1).toNat ∧
      ∀ k : Nat, k < ((4 : Int) + 1).toNat →
        v'.prfter_plist[k]? =
          (tenItems.item ((7 + (-1 + (k : Int))) % 10)).map PlayListItem.f) ∧
    ImageViewer.prefetchRows 7 10 5 = [6, 7, 8, 9, 0] :=
  startPrefetch_schedules_window tenItems 10 7 5 5 1 4 (by decide) (by decide)
    (by decide) (by decide) (by decide) rfl rfl rfl rfl (by decide) (by decide)
    (by decide)

/-! ## The playlist cursor -/

/-- C2 (the invariant is broken by the code): from the initial state, opening
three files, switching to spread view and advancing once puts the cursor on
row 2 with rows 2 and 0 shown; `playlistItemRemove` of the item in row 0 then
leaves two items and the cursor still at 2, outside `[0, 2)`. With spread view
off, deleting the selection of rows 2 and 1 while the cursor is on row 2 leaves
one item and the cursor at 1. -/
theorem wrapRemove_breaks_cursor_invariant :
    (∃ v, ImageViewer.init.run wrapRemoveTrace = some v ∧
      v.count = 2 ∧ v.index = 2 ∧ ¬ v.CursorInv) ∧
    (∃ v, ImageViewer.init.run multiRemoveTrace = some v ∧
      v.count = 1 ∧ v.index = 1 ∧ ¬ v.CursorInv) := by
  constructor
  · refine ⟨_, rfl, ?_, ?_, ?_⟩ <;> decide
  · refine ⟨_, rfl, ?_, ?_, ?_⟩ <;> decide

/-! ## Cache keys -/

/-- Two lists that agree after appending the same separator to slash-free
tails: split at the last separator. -/
theorem append_sep_inj {α : Type} [DecidableEq α] (c : α) :
    ∀ (l1 l2 r1 r2 : List α), c ∉ r1 → c ∉ r2 →
      l1 ++ c :: r1 = l2 ++ c :: r2 → l1 = l2 ∧ r1 = r2 := by
  intro l1 l2 r1 r2 h1 h2 h
  have hrev : r1.reverse ++ c :: l1.reverse = r2.reverse ++ c :: l2.reverse := by
    have := congrArg List.reverse h
    simpa using this
  have key : ∀ (a b x y : List α), c ∉ a → c ∉ b → a ++ c :: x = b ++ c :: y →
      a = b ∧ x = y := by
    intro a
    induction a with
    | nil =>
      intro b x y _ hb hab
      cases b with
      | nil => simpa using hab
      | cons b0 bs =>
        simp only [List.nil_append, List.cons_append, List.cons.injEq] at hab
        exact absurd (hab.1 ▸ List.mem_cons_self _ _) hb
    | cons a0 as ih =>
      intro b x y ha hb hab
      cases b with
      | nil =>
        simp only [List.nil_append, List.cons_append, List.cons.injEq] at hab
        exact absurd (hab.1 ▸ List.mem_cons_self _ _) ha
      | cons b0 bs =>
        simp only [List.cons_append, List.cons.injEq] at hab
        have := ih bs x y (fun hm => ha (List.mem_cons_of_mem _ hm))
          (fun hm => hb (List.mem_cons_of_mem _ hm)) hab.2
        exact ⟨by rw [hab.1, this.1], this.2⟩
  have := key r1.reverse r2.reverse l1.reverse l2.reverse
    (by simpa using h1) (by simpa using h2) hrev
  exact ⟨List.reverse_injective this.2, List.reverse_injective this.1⟩

theorem createKey_archive (f : File) (h : f.ft = FileType.ARCHIVE) :
    f.createKey.data = f.archive_path.data ++ '/' :: f.file_path.data := by
  simp [File.createKey, h, String.data_append]

theorem createKey_raw (f : File) (h : f.ft = FileType.RAW) :
    f.createKey = f.file_path := by
  simp [File.createKey, h]

/-- C6 (counterexample): a raw file and an archive entry, and two entries of
different archives, are different files with the same key. -/
theorem createKey_collides :
    (rawAB.ft = FileType.RAW ∧ archiveAB.ft = FileType.ARCHIVE ∧
      rawAB ≠ archiveAB ∧ rawAB.createKey = archiveAB.createKey) ∧
    (archiveABC1.ft = FileType.ARCHIVE ∧ archiveABC2.ft = FileType.ARCHIVE ∧
      archiveABC1.archive_path ≠ archiveABC2.archive_path ∧
      archiveABC1.raw_file_path ≠ archiveABC2.raw_file_path ∧
      archiveABC1.createKey = archiveABC2.createKey) := by
  decide

/-- C6 (amended): `createKey` separates files as follows. Two raw files with
different paths have different keys; two entries of one archive with different
entry texts have different keys; two archive entries whose entry texts hold no
slash and that differ in archive path or entry text have different keys. -/
theorem createKey_injective_within (f g : File) :
    (f.ft = FileType.RAW → g.ft = FileType.RAW → f.file_path ≠ g.file_path →
      f.createKey ≠ g.createKey) ∧
    (f.ft = FileType.ARCHIVE → g.ft = FileType.ARCHIVE →
      f.archive_path = g.archive_path → f.file_path ≠ g.file_path →
      f.createKey ≠ g.createKey) ∧
    (f.ft = FileType.ARCHIVE → g.ft = FileType.ARCHIVE →
      '/' ∉ f.file_path.data → '/' ∉ g.file_path.data →
      (f.archive_path ≠ g.archive_path ∨ f.file_path ≠ g.file_path) →
      f.createKey ≠ g.createKey) := by
  refine ⟨?_, ?_, ?_⟩
  · intro hf hg hne hk
    rw [createKey_raw f hf, createKey_raw g hg] at hk
    exact hne hk
  · intro hf hg ha hne hk
    have h := congrArg String.data hk
    rw [createKey_archive f hf, createKey_archive g hg, ha] at h
    have := List.append_cancel_left h
    simp only [List.cons.injEq, true_and] at this
    exact hne (String.ext this)
  · intro hf hg h1 h2 hne hk
    have h := congrArg String.data hk
    rw [createKey_archive f hf, createKey_archive g hg] at h
    have := append_sep_inj '/' _ _ _ _ h1 h2 h
    rcases hne with hne | hne
    · exact hne (String.ext this.1)
    · exact hne (String.ext this.2)

/-- C6 (amended), at a concrete input: the entries `b` and `c` of the archive
`a` have different keys. -/
theorem createKey_injective_within_witness :
    archiveAB.createKey ≠ archiveAC.createKey :=
  (createKey_injective_within archiveAB archiveAC).2.1 rfl rfl rfl (by decide)

/-! ## Resamplers -/

theorem grid_length {α : Type} (m : Nat) (f : Nat → Nat → α) :
    ∀ n : Nat, ((List.range n).flatMap (fun y => (List.range m).map (f y))).length = n * m
  | 0 => by simp
  | n + 1 => by
    rw [List.range_succ, List.flatMap_append, List.length_append, grid_length m f n]
    simp only [List.flatMap_cons, List.flatMap_nil, List.append_nil, List.length_map,
      List.length_range]
    ring

theorem grid_getElem? {α : Type} (m : Nat) (f : Nat → Nat → α) (x : Nat) (hx : x < m) :
    ∀ (n y : Nat), y < n →
      ((List.range n).flatMap (fun y => (List.range m).map (f y)))[x + y * m]? = some (f y x)
  | 0, _, h => absurd h (Nat.not_lt_zero _)
  | n + 1, y, h => by
    rw [List.range_succ, List.flatMap_append]
    by_cases hy : y < n
    · have hlt : x + y * m < ((List.range n).flatMap
          (fun y => (List.range m).map (f y))).length := by
        rw [grid_length]
        calc x + y * m < m + y * m := by omega
          _ = (y + 1) * m := by ring
          _ ≤ n * m := Nat.mul_le_mul_right m hy
      rw [List.getElem?_append_left hlt]
      exact grid_getElem? m f x hx n y hy
    · have hyn : y = n := by omega
      subst hyn
      have hge : ((List.range y).flatMap
          (fun y => (List.range m).map (f y))).length ≤ x + y * m := by
        rw [grid_length]; omega
      rw [List.getElem?_append_right hge, grid_length]
      simp only [List.flatMap_cons, List.flatMap_nil, List.append_nil]
      have : x + y * m - y * m = x := by omega
      rw [this, List.getElem?_map, List.getElem?_range hx]
      rfl

theorem raster_length (nw nh : Int) (px : Int → Int → QRgb) :
    (raster nw nh px).length = nw.toNat * nh.toNat := by
  unfold raster
  rw [grid_length nw.toNat (fun y x => px (x : Int) (y : Int)) nh.toNat]
  ring

theorem raster_getElem? (nw nh : Int) (px : Int → Int → QRgb) (x y : Nat)
    (hx : x < nw.toNat) (hy : y < nh.toNat) :
    (raster nw nh px)[x + y * nw.toNat]? = some (px (x : Int) (y : Int)) := by
  unfold raster
  exact grid_getElem? nw.toNat (fun y x => px (x : Int) (y : Int)) x hx nh.toNat y hy

theorem toInt_of_nonneg (q : ℚ) (h : 0 ≤ q) : toInt q = ⌊q⌋ := by
  simp only [toInt, if_pos h]

theorem toInt_intCast (z : Int) : toInt (z : ℚ) = z := by
  unfold toInt
  split <;> simp

/-- A raster whose pixel function reads back a buffer of the same shape is
that buffer. -/
theorem raster_eq_bits (nw nh : Int) (px : Int → Int → QRgb) (bits : List QRgb)
    (hlen : bits.length = nw.toNat * nh.toNat)
    (hpx : ∀ x y : Nat, x < nw.toNat → y < nh.toNat →
      px (x : Int) (y : Int) = bits.getD (x + y * nw.toNat) 0) :
    raster nw nh px = bits := by
  apply List.ext_getElem
  · rw [raster_length, hlen]
  · intro n h1 h2
    have hm : 0 < nw.toNat := by
      rcases Nat.eq_zero_or_pos nw.toNat with h0 | h0
      · rw [hlen, h0, Nat.zero_mul] at h2; exact absurd h2 (Nat.not_lt_zero _)
      · exact h0
    have hx : n % nw.toNat < nw.toNat := Nat.mod_lt _ hm
    have hy : n / nw.toNat < nh.toNat := by
      rw [Nat.div_lt_iff_lt_mul hm, Nat.mul_comm]; rw [hlen] at h2; exact h2
    have hn : n % nw.toNat + n / nw.toNat * nw.toNat = n := by
      rw [Nat.mul_comm]; exact Nat.mod_add_div n nw.toNat
    have h3 := raster_getElem? nw nh px (n % nw.toNat) (n / nw.toNat) hx hy
    rw [hn] at h3
    have h4 : (raster nw nh px)[n]? = some ((raster nw nh px)[n]) :=
      List.getElem?_eq_getElem h1
    rw [h4] at h3
    have h5 := Option.some.inj h3
    rw [h5, hpx _ _ hx hy, hn]
    exact List.getD_eq_getElem _ _ h2

theorem qRgba_channels (p : Nat) (hp : p < 4294967296) :
    qRgba (qRed p) (qGreen p) (qBlue p) (qAlpha p) = p := by
  unfold qRgba qRed qGreen qBlue qAlpha
  show ((((p / 16777216 : Nat) : Int) % 256).toNat * 16777216
    + (((p / 65536 % 256 : Nat) : Int) % 256).toNat * 65536
    + (((p / 256 % 256 : Nat) : Int) % 256).toNat * 256
    + (((p % 256 : Nat) : Int) % 256).toNat : Nat) = p
  omega

theorem floor_add_half (z : Int) : ⌊(z : ℚ) / 1 + 1 / 2⌋ = z := by
  rw [Int.floor_eq_iff]
  constructor <;> norm_num

theorem min_self_pred {a b : Int} (h : a < b) : min a (b - 1) = a :=
  min_eq_left (by omega)

theorem resample_width_one (w : Nat) : (toInt (((w : Int) : ℚ) * 1)).toNat = w := by
  rw [mul_one, toInt_intCast, Int.toNat_ofNat]

/-- The function `nn` at scale 1 returns its argument. -/
theorem nn_one (I : QImage) (hI : I.WF) : nn I 1 = I := by
  obtain ⟨w, h, bits⟩ := I
  obtain ⟨hlen, _⟩ := hI
  simp only at hlen
  simp only [nn, resample_width_one, QImage.mk.injEq, true_and]
  rw [mul_one, mul_one, toInt_intCast, toInt_intCast]
  apply raster_eq_bits
  · simpa using hlen
  · intro x y hx hy
    simp only [Int.toNat_ofNat] at hx hy ⊢
    have hx1 : ((x : Int)) < (w : Int) := by exact_mod_cast hx
    have hy1 : ((y : Int)) < (h : Int) := by exact_mod_cast hy
    rw [floor_add_half, floor_add_half, min_self_pred hx1, min_self_pred hy1]
    simp only [QImage.peek]
    congr 1
    have : (y : Int) * (w : Int) + (x : Int) = ((x + y * w : Nat) : Int) := by
      push_cast; ring
    rw [this, Int.toNat_ofNat]

theorem offset_cast (x y w : Nat) :
    ((x : Int) + (y : Int) * (w : Int)).toNat = x + y * w := by
  have : (x : Int) + (y : Int) * (w : Int) = ((x + y * w : Nat) : Int) := by
    push_cast; ring
  rw [this, Int.toNat_ofNat]

theorem offset_lt {x y w h : Nat} (hx : x < w) (hy : y < h) : x + y * w < w * h := by
  calc x + y * w < w + y * w := by omega
    _ = w * (y + 1) := by ring
    _ ≤ w * h := Nat.mul_le_mul_left w hy

theorem channels_range (p : Nat) (hp : p < 4294967296) :
    (0 ≤ qRed p ∧ qRed p ≤ 255) ∧ (0 ≤ qGreen p ∧ qGreen p ≤ 255) ∧
    (0 ≤ qBlue p ∧ qBlue p ≤ 255) ∧ (0 ≤ qAlpha p ∧ qAlpha p ≤ 255) := by
  unfold qRed qGreen qBlue qAlpha
  refine ⟨⟨?_, ?_⟩, ⟨?_, ?_⟩, ⟨?_, ?_⟩, ⟨?_, ?_⟩⟩ <;> omega

/-- A pixel of `bl` at scale 1 is the source pixel at the same place. -/
theorem blPixel_one (past : Int → QRgb) (I : QImage) (hI : I.WF) (x y : Nat)
    (hx : x < I.width) (hy : y < I.height) :
    blPixel past I 1 (x : Int) (y : Int) = I.bits.getD (x + y * I.width) 0 := by
  obtain ⟨hlen, hpx⟩ := hI
  have hx1 : (x : Int) < (I.width : Int) := by exact_mod_cast hx
  have hy1 : (y : Int) < (I.height : Int) := by exact_mod_cast hy
  have hin : x + y * I.width < I.bits.length := by
    rw [hlen]; exact offset_lt hx hy
  have hd : blDcache 1 (x : Int) = 0 := by
    simp [blDcache]
  have hi : blIcache (I.width : Int) 1 (x : Int) = x := by
    simp only [blIcache, div_one, Int.floor_intCast]
    exact min_self_pred hx1
  have hy0 : blYi0 (I.width : Int) (I.height : Int) 1 (y : Int)
      = (y : Int) * (I.width : Int) := by
    simp only [blYi0, div_one, Int.floor_intCast]
    rw [min_self_pred hy1]
  have hp00 : peekPast past I ((x : Int) + (y : Int) * (I.width : Int))
      = I.bits.getD (x + y * I.width) 0 := by
    unfold peekPast
    rw [offset_cast, if_pos ⟨by positivity, hin⟩]
  have hty : ((y : Int) : ℚ) / 1 - ((⌊((y : Int) : ℚ) / 1⌋ : Int) : ℚ) = 0 := by
    simp
  have hlt : I.bits.getD (x + y * I.width) 0 < 4294967296 := by
    rw [List.getD_eq_getElem _ _ hin]
    exact hpx _ (List.getElem_mem _)
  unfold blPixel
  simp only [hd, hi, hy0, hp00, hty, sub_zero, mul_one, mul_zero, zero_mul, one_mul,
    add_zero, toInt_intCast]
  exact qRgba_channels _ hlt

/-- The function `bl` at scale 1 returns its argument. -/
theorem bl_one (past : Int → QRgb) (I : QImage) (hI : I.WF) : bl past I 1 = I := by
  have hpix := blPixel_one past I hI
  obtain ⟨w, h, bits⟩ := I
  have hlen := hI.1
  simp only at hlen hpix
  simp only [bl, resample_width_one, QImage.mk.injEq, true_and]
  rw [mul_one, mul_one, toInt_intCast, toInt_intCast]
  apply raster_eq_bits
  · simpa using hlen
  · intro x y hx hy
    simp only [Int.toNat_ofNat] at hx hy ⊢
    exact hpix x y hx hy

theorem bicubic_h_zero : bicubic_h 0 = 1 := by
  norm_num [bicubic_h]

theorem bicubic_h_one : bicubic_h 1 = 0 := by
  norm_num [bicubic_h]

theorem bicubic_h_two : bicubic_h 2 = 0 := by
  norm_num [bicubic_h]

theorem bcWeights_zero :
    bcWeights 0 0 = 0 ∧ bcWeights 0 1 = 1 ∧ bcWeights 0 2 = 0 ∧ bcWeights 0 3 = 0 := by
  refine ⟨?_, ?_, ?_, ?_⟩
  · show bicubic_h (1 + 0) = 0
    rw [add_zero]; exact bicubic_h_one
  · exact bicubic_h_zero
  · show bicubic_h (1 - 0) = 0
    rw [sub_zero]; exact bicubic_h_one
  · show bicubic_h (2 - 0) = 0
    rw [sub_zero]; exact bicubic_h_two

theorem clamp_channel {c : Int} (h0 : 0 ≤ c) (h1 : c ≤ 255) : min (max c 0) 255 = c := by
  rw [max_eq_left h0, min_eq_left h1]

/-- A pixel of `bc` at scale 1 is the source pixel at the same place. -/
theorem bcPixel_one (I : QImage) (hI : I.WF) (x y : Nat)
    (hx : x < I.width) (hy : y < I.height) :
    bcPixel I 1 (x : Int) (y : Int) = I.bits.getD (x + y * I.width) 0 := by
  obtain ⟨hlen, hpx⟩ := hI
  have hx1 : (x : Int) < (I.width : Int) := by exact_mod_cast hx
  have hy1 : (y : Int) < (I.height : Int) := by exact_mod_cast hy
  have hin : x + y * I.width < I.bits.length := by
    rw [hlen]; exact offset_lt hx hy
  have hlt : I.bits.getD (x + y * I.width) 0 < 4294967296 := by
    rw [List.getD_eq_getElem _ _ hin]
    exact hpx _ (List.getElem_mem _)
  obtain ⟨w0, w1, w2, w3⟩ := bcWeights_zero
  have hcx : min (max ((x : Int) + ((1 : Nat) : Int) - 1) 0) ((I.width : Int) - 1) = x := by
    have : (x : Int) + ((1 : Nat) : Int) - 1 = x := by push_cast; ring
    rw [this, max_eq_left (by positivity), min_self_pred hx1]
  have hcy : min (max ((y : Int) + ((1 : Nat) : Int) - 1) 0) ((I.height : Int) - 1) = y := by
    have : (y : Int) + ((1 : Nat) : Int) - 1 = y := by push_cast; ring
    rw [this, max_eq_left (by positivity), min_self_pred hy1]
  have hpk : I.peek ((x : Int) + (y : Int) * (I.width : Int))
      = I.bits.getD (x + y * I.width) 0 := by
    unfold QImage.peek
    rw [offset_cast]
  obtain ⟨⟨r0, r1⟩, ⟨g0, g1⟩, ⟨b0, b1⟩, ⟨a0, a1⟩⟩ := channels_range _ hlt
  unfold bcPixel bicubic_matmul
  simp only [div_one, toInt_intCast, sub_self, w0, w1, w2, w3, zero_mul, one_mul,
    mul_zero, mul_one, zero_add, add_zero, hcx, hcy, hpk,
    clamp_channel r0 r1, clamp_channel g0 g1, clamp_channel b0 b1, clamp_channel a0 a1]
  exact qRgba_channels _ hlt

/-- The function `bc` at scale 1 returns its argument. -/
theorem bc_one (I : QImage) (hI : I.WF) : bc I 1 = I := by
  have hpix := bcPixel_one I hI
  obtain ⟨w, h, bits⟩ := I
  have hlen := hI.1
  simp only at hlen hpix
  simp only [bc, resample_width_one, QImage.mk.injEq, true_and]
  rw [mul_one, mul_one, toInt_intCast, toInt_intCast]
  apply raster_eq_bits
  · simpa using hlen
  · intro x y hx hy
    simp only [Int.toNat_ofNat] at hx hy ⊢
    exact hpix x y hx hy

theorem toInt_mul_two (w : Nat) : toInt (((w : Int) : ℚ) * 2) = ((2 * w : Nat) : Int) := by
  have : ((w : Int) : ℚ) * 2 = (((2 * w : Nat) : Int) : ℚ) := by push_cast; ring
  rw [this, toInt_intCast]

theorem toInt_mul_half (w : Nat) :
    toInt ((((2 * w : Nat) : Int) : ℚ) * (1 / 2)) = (w : Int) := by
  have : (((2 * w : Nat) : Int) : ℚ) * (1 / 2) = ((w : Int) : ℚ) := by push_cast; ring
  rw [this, toInt_intCast]

theorem floor_double (z : Nat) : ⌊(((z : Int)) : ℚ) / (1 / 2) + 1 / 2⌋ = ((2 * z : Nat) : Int) := by
  rw [Int.floor_eq_iff]
  constructor
  · push_cast; linarith
  · push_cast; linarith

theorem floor_half_even (z : Nat) :
    ⌊((((2 * z : Nat) : Int)) : ℚ) / 2 + 1 / 2⌋ = (z : Int) := by
  rw [Int.floor_eq_iff]
  constructor
  · push_cast; linarith
  · push_cast; linarith

theorem raster_getD (nw nh : Int) (px : Int → Int → QRgb) (x y : Nat)
    (hx : x < nw.toNat) (hy : y < nh.toNat) :
    (raster nw nh px).getD (x + y * nw.toNat) 0 = px (x : Int) (y : Int) := by
  rw [List.getD_eq_getElem?_getD, raster_getElem? nw nh px x y hx hy]
  rfl

/-- Doubling with `nn` and halving again gives the image back (for every
size). -/
theorem nn_two_half (I : QImage) (hI : I.WF) : nn (nn I 2) (1 / 2) = I := by
  obtain ⟨w, h, bits⟩ := I
  obtain ⟨hlen, _⟩ := hI
  simp only at hlen
  simp only [nn, toInt_mul_two, Int.toNat_ofNat, toInt_mul_half, QImage.mk.injEq, true_and]
  apply raster_eq_bits
  · simpa using hlen
  · intro x y hx hy
    simp only [Int.toNat_ofNat] at hx hy
    have hx2 : 2 * x < ((2 * w : Nat) : Int).toNat := by
      rw [Int.toNat_ofNat]; omega
    have hy2 : 2 * y < ((2 * h : Nat) : Int).toNat := by
      rw [Int.toNat_ofNat]; omega
    have hmx : min (((2 * x : Nat)) : Int) ((((2 * w : Nat)) : Int) - 1)
        = ((2 * x : Nat) : Int) := min_self_pred (by exact_mod_cast (by omega : 2 * x < 2 * w))
    have hmy : min (((2 * y : Nat)) : Int) ((((2 * h : Nat)) : Int) - 1)
        = ((2 * y : Nat) : Int) := min_self_pred (by exact_mod_cast (by omega : 2 * y < 2 * h))
    have hx1 : (x : Int) < (w : Int) := by exact_mod_cast hx
    have hy1 : (y : Int) < (h : Int) := by exact_mod_cast hy
    rw [floor_double, floor_double, hmx, hmy]
    have hoff : (((2 * y : Nat) : Int) * ((2 * w : Nat) : Int) + ((2 * x : Nat) : Int)).toNat
        = 2 * x + 2 * y * ((2 * w : Nat) : Int).toNat := by
      rw [Int.toNat_ofNat]
      have : ((2 * y : Nat) : Int) * ((2 * w : Nat) : Int) + ((2 * x : Nat) : Int)
          = ((2 * x + 2 * y * (2 * w) : Nat) : Int) := by push_cast; ring
      rw [this, Int.toNat_ofNat]
    simp only [QImage.peek]
    rw [hoff, raster_getD _ _ _ _ _ hx2 hy2]
    rw [floor_half_even, floor_half_even, min_self_pred hx1, min_self_pred hy1]
    congr 1
    have : (y : Int) * (w : Int) + (x : Int) = ((x + y * w : Nat) : Int) := by
      push_cast; ring
    rw [this, Int.toNat_ofNat, Int.toNat_ofNat]

/-! ## Compositor: what the loops store -/

theorem ovw_ovw (o : Option QRgb) (a b : QRgb) : ovw (ovw o a) b = ovw o b := by
  cases o <;> rfl

theorem poke_get (d : List QRgb) (i p : Nat) (v : QRgb) :
    (poke d i v)[p]? = if i = p then ovw d[p]? v else d[p]? := by
  unfold poke
  rw [List.getElem?_set]
  by_cases h : i = p
  · subst h
    simp only [if_true]
    by_cases hl : i < d.length
    · rw [if_pos hl, List.getElem?_eq_getElem hl]; rfl
    · rw [if_neg hl, List.getElem?_eq_none (by omega)]; rfl
  · simp only [if_neg h]

theorem natLoop_empty {σ : Type} (lo hi : Nat) (body : Nat → σ → σ) (init : σ)
    (h : hi ≤ lo) : natLoop lo hi body init = init := by
  unfold natLoop
  rw [Nat.sub_eq_zero_of_le h]
  rfl

theorem natLoop_succ {σ : Type} (lo hi : Nat) (body : Nat → σ → σ) (init : σ)
    (h : lo ≤ hi) : natLoop lo (hi + 1) body init = body hi (natLoop lo hi body init) := by
  unfold natLoop
  have h1 : hi + 1 - lo = (hi - lo) + 1 := by omega
  rw [h1, List.range'_concat, List.foldl_append]
  simp only [List.foldl_cons, List.foldl_nil, Nat.one_mul]
  have h2 : lo + (hi - lo) = hi := by omega
  rw [h2]

theorem natLoop_length (lo hi : Nat) (body : Nat → List QRgb → List QRgb)
    (hb : ∀ i d, (body i d).length = d.length) (init : List QRgb) :
    (natLoop lo hi body init).length = init.length := by
  unfold natLoop
  generalize List.range' lo (hi - lo) = l
  induction l generalizing init with
  | nil => rfl
  | cons a as ih =>
    rw [List.foldl_cons, ih, hb]

/-- The inner loop over `x`: the cells `a + b, ..., a + b + tw - 1` receive
`g 0, ..., g (tw - 1)`; the others keep their content. -/
theorem row_get (a b : Nat) (g : Nat → QRgb) (d : List QRgb) (p : Nat) :
    ∀ tw : Nat, (natLoop 0 tw (fun x d => poke d (x + a + b) (g x)) d)[p]? =
      if a + b ≤ p ∧ p < a + b + tw then ovw d[p]? (g (p - (a + b))) else d[p]?
  | 0 => by
    rw [natLoop_empty 0 0 _ _ (Nat.le_refl 0), if_neg (by omega)]
  | tw + 1 => by
    rw [natLoop_succ 0 tw _ _ (Nat.zero_le tw), poke_get, row_get a b g d p tw]
    by_cases h1 : tw + a + b = p
    · rw [if_pos h1, if_neg (by omega), if_pos (by omega)]
      have : p - (a + b) = tw := by omega
      rw [this]
    · rw [if_neg h1]
      by_cases h2 : a + b ≤ p ∧ p < a + b + tw
      · rw [if_pos h2, if_pos (by omega)]
      · rw [if_neg h2, if_neg (by omega)]

theorem band_iff (c r R cw sw tw : Nat) (hc : c < cw) (hs : sw + tw ≤ cw) :
    (sw + R * cw ≤ c + r * cw ∧ c + r * cw < sw + R * cw + tw) ↔
      (r = R ∧ sw ≤ c ∧ c < sw + tw) := by
  constructor
  · rintro ⟨h1, h2⟩
    rcases Nat.lt_trichotomy r R with h | h | h
    · have := Nat.mul_le_mul_right cw (Nat.succ_le_of_lt h)
      rw [Nat.succ_mul] at this
      omega
    · subst h; omega
    · have := Nat.mul_le_mul_right cw (Nat.succ_le_of_lt h)
      rw [Nat.succ_mul] at this
      omega
  · rintro ⟨rfl, h1, h2⟩
    omega

/-- A block of rows: for `y` in `[ylo, yhi)` the row `y + off` of the
composite receives `g y 0, ..., g y (tw - 1)` in the columns from `sw` on. -/
theorem block_get (cw sw tw off ylo : Nat) (g : Nat → Nat → QRgb) (d : List QRgb)
    (c r : Nat) (hc : c < cw) (hs : sw + tw ≤ cw) :
    ∀ yhi : Nat,
      (natLoop ylo yhi (fun y d =>
        natLoop 0 tw (fun x d => poke d (x + sw + (y + off) * cw) (g y x)) d) d)[c + r * cw]? =
      if (sw ≤ c ∧ c < sw + tw) ∧ ylo + off ≤ r ∧ r < yhi + off then
        ovw d[c + r * cw]? (g (r - off) (c - sw))
      else d[c + r * cw]?
  | 0 => by
    rw [natLoop_empty ylo 0 _ _ (Nat.zero_le ylo), if_neg (by omega)]
  | yhi + 1 => by
    by_cases hlo : ylo ≤ yhi
    · rw [natLoop_succ ylo yhi _ _ hlo, row_get, block_get cw sw tw off ylo g d c r hc hs yhi]
      have hb := band_iff c r (yhi + off) cw sw tw hc hs
      by_cases h1 : r = yhi + off ∧ sw ≤ c ∧ c < sw + tw
      · rw [if_pos (hb.mpr h1), if_neg (by omega), if_pos (by omega)]
        obtain ⟨hr, h3, h4⟩ := h1
        have e1 : r - off = yhi := by omega
        have e2 : c + r * cw - (sw + (yhi + off) * cw) = c - sw := by
          rw [hr]; omega
        rw [e1, e2]
      · rw [if_neg (fun h => h1 (hb.mp h))]
        by_cases h2 : (sw ≤ c ∧ c < sw + tw) ∧ ylo + off ≤ r ∧ r < yhi + off
        · rw [if_pos h2, if_pos (by omega)]
        · rw [if_neg h2, if_neg (by omega)]
    · rw [natLoop_empty ylo (yhi + 1) _ _ (by omega), if_neg (by omega)]

theorem block_get_zero (cw sw tw ylo : Nat) (v : QRgb) (d : List QRgb)
    (c r : Nat) (hc : c < cw) (hs : sw + tw ≤ cw) (yhi : Nat) :
    (natLoop ylo yhi (fun y d =>
      natLoop 0 tw (fun x d => poke d (x + sw + y * cw) v) d) d)[c + r * cw]? =
    if (sw ≤ c ∧ c < sw + tw) ∧ ylo ≤ r ∧ r < yhi then ovw d[c + r * cw]? v
    else d[c + r * cw]? := by
  have h := block_get cw sw tw 0 ylo (fun _ _ => v) d c r hc hs yhi
  simpa only [Nat.add_zero] using h

theorem paint_length (cw ch sw : Nat) (t : QImage) (d : List QRgb) :
    (paint cw ch sw t d).length = d.length := by
  unfold paint
  have hrow : ∀ (f : Nat → Nat) (g : Nat → QRgb) (d : List QRgb),
      (natLoop 0 t.width (fun x d => poke d (f x) (g x)) d).length = d.length := by
    intro f g d
    exact natLoop_length _ _ _ (fun i d => by simp [poke]) d
  simp only []
  rw [natLoop_length _ _ _ (fun y d => hrow _ _ d),
    natLoop_length _ _ _ (fun y d => hrow _ _ d),
    natLoop_length _ _ _ (fun y d => hrow _ _ d)]

/-- What `paint` leaves in the cell of column `c` and row `r`. -/
theorem paint_get (cw ch sw : Nat) (t : QImage) (d : List QRgb) (c r : Nat)
    (hc : c < cw) (hs : sw + t.width ≤ cw) :
    (paint cw ch sw t d)[c + r * cw]? =
      if (sw ≤ c ∧ c < sw + t.width) ∧ t.height + (ch - t.height) / 2 ≤ r ∧ r < ch then
        ovw d[c + r * cw]? white
      else if (sw ≤ c ∧ c < sw + t.width) ∧ (ch - t.height) / 2 ≤ r
          ∧ r < t.height + (ch - t.height) / 2 then
        ovw d[c + r * cw]? (t.bits.getD (c - sw + (r - (ch - t.height) / 2) * t.width) 0)
      else if (sw ≤ c ∧ c < sw + t.width) ∧ r < (ch - t.height) / 2 then
        ovw d[c + r * cw]? white
      else d[c + r * cw]? := by
  unfold paint
  simp only []
  rw [block_get_zero cw sw t.width _ white _ c r hc hs,
    block_get cw sw t.width ((ch - t.height) / 2) 0
      (fun y x => t.bits.getD (x + y * t.width) 0) _ c r hc hs,
    block_get_zero cw sw t.width 0 white d c r hc hs]
  by_cases h3 : (sw ≤ c ∧ c < sw + t.width) ∧ t.height + (ch - t.height) / 2 ≤ r ∧ r < ch
  · rw [if_pos h3, if_neg (by omega), if_neg (by omega), if_pos h3]
  · rw [if_neg h3]
    by_cases h2 : (sw ≤ c ∧ c < sw + t.width) ∧ (ch - t.height) / 2 ≤ r
        ∧ r < t.height + (ch - t.height) / 2
    · rw [if_pos (by omega), if_neg (by omega), if_pos h2, if_neg h3]
    · rw [if_neg (by omega), if_neg h2]
      by_cases h1 : (sw ≤ c ∧ c < sw + t.width) ∧ r < (ch - t.height) / 2
      · rw [if_pos (by omega), if_pos h1, if_neg h3]
      · rw [if_neg (by omega), if_neg h1, if_neg h3]

theorem paintAll_cons (cw ch : Nat) (t : QImage) (vec : List QImage) (sw : Nat)
    (d : List QRgb) :
    paintAll cw ch (t :: vec) sw d = paintAll cw ch vec (sw + t.width) (paint cw ch sw t d) :=
  rfl

theorem paintAll_length (cw ch : Nat) :
    ∀ (vec : List QImage) (sw : Nat) (d : List QRgb),
      (paintAll cw ch vec sw d).length = d.length
  | [], _, _ => rfl
  | t :: vec, sw, d => by
    rw [paintAll_cons, paintAll_length cw ch vec, paint_length]

theorem combinedWidth_foldl (l : List QImage) :
    ∀ a : Nat, l.foldl (fun cw temp => cw + temp.width) a = a + combinedWidth l := by
  induction l with
  | nil => intro a; rfl
  | cons t l ih =>
    intro a
    unfold combinedWidth
    rw [List.foldl_cons, List.foldl_cons, ih, ih (0 + t.width)]
    omega

theorem combinedWidth_cons (t : QImage) (l : List QImage) :
    combinedWidth (t :: l) = t.width + combinedWidth l := by
  unfold combinedWidth
  rw [List.foldl_cons, combinedWidth_foldl]
  unfold combinedWidth
  omega

theorem combinedWidth_append (l1 l2 : List QImage) :
    combinedWidth (l1 ++ l2) = combinedWidth l1 + combinedWidth l2 := by
  induction l1 with
  | nil => simp [combinedWidth]
  | cons t l ih => rw [List.cons_append, combinedWidth_cons, combinedWidth_cons, ih]; omega

theorem combinedWidth_reverse (l : List QImage) :
    combinedWidth l.reverse = combinedWidth l := by
  induction l with
  | nil => rfl
  | cons t l ih =>
    have h1 : combinedWidth ([] : List QImage) = 0 := rfl
    rw [List.reverse_cons, combinedWidth_append, combinedWidth_cons, ih, h1,
      combinedWidth_cons]
    omega

theorem combinedHeight_foldl (l : List QImage) :
    ∀ a : Nat, a ≤ l.foldl (fun ch temp => max ch temp.height) a ∧
      ∀ t ∈ l, t.height ≤ l.foldl (fun ch temp => max ch temp.height) a := by
  induction l with
  | nil => intro a; exact ⟨Nat.le_refl a, fun t ht => absurd ht (List.not_mem_nil t)⟩
  | cons u l ih =>
    intro a
    rw [List.foldl_cons]
    obtain ⟨h1, h2⟩ := ih (max a u.height)
    refine ⟨le_trans (le_max_left _ _) h1, ?_⟩
    intro t ht
    rcases List.mem_cons.mp ht with rfl | ht
    · exact le_trans (le_max_right _ _) h1
    · exact h2 t ht

theorem height_le_combinedHeight (l : List QImage) (t : QImage) (ht : t ∈ l) :
    t.height ≤ combinedHeight l :=
  (combinedHeight_foldl l 0).2 t ht

/-- Images painted from column `sw` on leave the columns to the left alone. -/
theorem paintAll_skip (cw ch c r : Nat) :
    ∀ (vec : List QImage) (sw : Nat) (d : List QRgb), c < sw →
      sw + combinedWidth vec ≤ cw →
      (paintAll cw ch vec sw d)[c + r * cw]? = d[c + r * cw]?
  | [], _, _, _, _ => rfl
  | t :: vec, sw, d, hc, hfit => by
    rw [combinedWidth_cons] at hfit
    rw [paintAll_cons, paintAll_skip cw ch c r vec (sw + t.width) _ (by omega) (by omega),
      paint_get cw ch sw t d c r (by omega) (by omega),
      if_neg (by omega), if_neg (by omega), if_neg (by omega)]

theorem paintAll_append (cw ch : Nat) :
    ∀ (l1 l2 : List QImage) (sw : Nat) (d : List QRgb),
      paintAll cw ch (l1 ++ l2) sw d =
        paintAll cw ch l2 (sw + combinedWidth l1) (paintAll cw ch l1 sw d)
  | [], l2, sw, d => by simp [combinedWidth, paintAll]
  | t :: l1, l2, sw, d => by
    rw [List.cons_append, paintAll_cons, paintAll_cons, paintAll_append cw ch l1 l2,
      combinedWidth_cons, Nat.add_assoc]

/-- The value that the compositor stores in row `r` of the column band of the
image `t`, inside a composite of height `ch`. -/
theorem paintAll_pixel (cw ch : Nat) (pre post : List QImage) (t : QImage)
    (d : List QRgb) (x r : Nat) (hd : d.length = cw * ch)
    (hfit : combinedWidth (pre ++ t :: post) ≤ cw) (hx : x < t.width) (hr : r < ch) :
    (paintAll cw ch (pre ++ t :: post) 0 d)[combinedWidth pre + x + r * cw]? =
      some (if t.height + (ch - t.height) / 2 ≤ r then white
        else if (ch - t.height) / 2 ≤ r then
          t.bits.getD (x + (r - (ch - t.height) / 2) * t.width) 0
        else white) := by
  rw [combinedWidth_append, combinedWidth_cons] at hfit
  have hc : combinedWidth pre + x < cw := by omega
  have hin : combinedWidth pre + x + r * cw < (paintAll cw ch pre 0 d).length := by
    rw [paintAll_length, hd]; exact offset_lt hc hr
  rw [paintAll_append, paintAll_cons, Nat.zero_add,
    paintAll_skip cw ch _ r post _ _ (by omega) (by omega),
    paint_get cw ch _ t _ _ r hc (by omega), List.getElem?_eq_getElem hin]
  have e : combinedWidth pre + x - combinedWidth pre = x := by omega
  by_cases h3 : t.height + (ch - t.height) / 2 ≤ r
  · rw [if_pos (by omega), if_pos h3]; rfl
  · rw [if_neg (by omega), if_neg h3]
    by_cases h2 : (ch - t.height) / 2 ≤ r
    · rw [if_pos (by omega), if_pos h2, e]; rfl
    · rw [if_neg (by omega), if_neg h2, if_pos (by omega)]; rfl

/-- The cell of the composite in row `r` and in the `x`-th column of the band
of the image `t`, where the images are laid out in the order
`pre ++ t :: post`. -/
theorem imageCombine_cell (rb : Bool) (junk : Nat → QRgb) (imgs pre post : List QImage)
    (t : QImage) (hvec : (if rb then imgs.reverse else imgs) = pre ++ t :: post)
    (x r : Nat) (hx : x < t.width) (hr : r < combinedHeight imgs) :
    (imageCombine rb junk imgs).pixel (combinedWidth pre + x) r =
      some (if t.height + (combinedHeight imgs - t.height) / 2 ≤ r then white
        else if (combinedHeight imgs - t.height) / 2 ≤ r then
          t.bits.getD (x + (r - (combinedHeight imgs - t.height) / 2) * t.width) 0
        else white) := by
  have hfit : combinedWidth (pre ++ t :: post) ≤ combinedWidth imgs := by
    rw [← hvec]
    cases rb
    · simp
    · simp [combinedWidth_reverse]
  unfold imageCombine QImage.pixel
  simp only [hvec]
  exact paintAll_pixel _ _ pre post t _ x r (by simp) hfit hx hr

theorem white_eq : white = 4294967295 := by decide

theorem mem_vec_height (rb : Bool) (imgs pre post : List QImage) (t : QImage)
    (hvec : (if rb then imgs.reverse else imgs) = pre ++ t :: post) :
    t.height ≤ combinedHeight imgs := by
  apply height_le_combinedHeight
  have hm : t ∈ (if rb then imgs.reverse else imgs) := by
    rw [hvec]; simp
  cases rb
  · simpa using hm
  · simpa using hm

theorem wf_pixel (A : QImage) (hA : A.WF) (x y : Nat) (hx : x < A.width)
    (hy : y < A.height) : A.pixel x y = some (A.bits.getD (x + y * A.width) 0) := by
  have hin : x + y * A.width < A.bits.length := by
    rw [hA.1]; exact offset_lt hx hy
  unfold QImage.pixel
  rw [List.getElem?_eq_getElem hin, List.getD_eq_getElem _ _ hin]

/-- An image keeps its pixels inside the composite: column band of `t`, rows
from `(ch - t.height) / 2` on. -/
theorem imageCombine_copy (rb : Bool) (junk : Nat → QRgb) (imgs pre post : List QImage)
    (t : QImage) (ht : t.WF)
    (hvec : (if rb then imgs.reverse else imgs) = pre ++ t :: post)
    (x y : Nat) (hx : x < t.width) (hy : y < t.height) :
    (imageCombine rb junk imgs).pixel (combinedWidth pre + x)
      (y + (combinedHeight imgs - t.height) / 2) = t.pixel x y := by
  have hle := mem_vec_height rb imgs pre post t hvec
  rw [imageCombine_cell rb junk imgs pre post t hvec x _ hx (by omega),
    if_neg (by omega), if_pos (by omega), wf_pixel t ht x y hx hy]
  have : y + (combinedHeight imgs - t.height) / 2 - (combinedHeight imgs - t.height) / 2 = y := by
    omega
  rw [this]

/-! ## Claims on the compositor -/

/-- C3: for ARGB images `A` and `B` and right-binding off, the composite `C`
of `[A, B]` holds `A` in the columns `[0, A.w)` and `B` in the columns
`[A.w, A.w + B.w)`, each from row `(C.h - h) / 2` on:
`C(x, y + (C.h - A.h)/2) = A(x, y)` and `C(A.w + x, y + (C.h - B.h)/2) = B(x, y)`;
with right-binding on, the composite of `[A, B]` is the right-binding-off
composite of `[B, A]`. -/
theorem imageCombine_layout (junk : Nat → QRgb) (A B : QImage) (hA : A.WF) (hB : B.WF) :
    (∀ x y : Nat, x < A.width → y < A.height →
      (imageCombine false junk [A, B]).pixel x
        (y + ((imageCombine false junk [A, B]).height - A.height) / 2) = A.pixel x y) ∧
    (∀ x y : Nat, x < B.width → y < B.height →
      (imageCombine false junk [A, B]).pixel (A.width + x)
        (y + ((imageCombine false junk [A, B]).height - B.height) / 2) = B.pixel x y) ∧
    imageCombine true junk [A, B] = imageCombine false junk [B, A] := by
  refine ⟨?_, ?_, ?_⟩
  · intro x y hx hy
    have h := imageCombine_copy false junk [A, B] [] [B] A hA rfl x y hx hy
    have e : combinedWidth ([] : List QImage) + x = x := by simp [combinedWidth]
    rw [e] at h
    exact h
  · intro x y hx hy
    have h := imageCombine_copy false junk [A, B] [A] [] B hB rfl x y hx hy
    have e : combinedWidth [A] + x = A.width + x := by simp [combinedWidth]
    rw [e] at h
    exact h
  · have hw : combinedWidth [A, B] = combinedWidth [B, A] := by
      simp [combinedWidth, Nat.add_comm]
    have hh : combinedHeight [A, B] = combinedHeight [B, A] := by
      simp [combinedHeight, max_comm]
    simp only [imageCombine, hw, hh, if_true, List.reverse_cons, List.reverse_nil,
      List.nil_append, List.singleton_append]
    rfl

/-- C3, at a concrete input: a 2 by 1 image beside a 1 by 3 image. -/
theorem imageCombine_layout_witness :
    (∀ x y : Nat, x < img21.width → y < img21.height →
      (imageCombine false (fun _ => 7) [img21, img13]).pixel x
        (y + ((imageCombine false (fun _ => 7) [img21, img13]).height - img21.height) / 2)
        = img21.pixel x y) ∧
    (∀ x y : Nat, x < img13.width → y < img13.height →
      (imageCombine false (fun _ => 7) [img21, img13]).pixel (img21.width + x)
        (y + ((imageCombine false (fun _ => 7) [img21, img13]).height - img13.height) / 2)
        = img13.pixel x y) ∧
    imageCombine true (fun _ => 7) [img21, img13]
      = imageCombine false (fun _ => 7) [img13, img21] :=
  imageCombine_layout (fun _ => 7) img21 img13
    (by unfold QImage.WF; exact ⟨rfl, by decide⟩)
    (by unfold QImage.WF; exact ⟨rfl, by decide⟩)

/-- C4: the composite is as wide as the sum of the input widths and as high
as the highest input, for one and for two images and for either setting of
right-binding; two 50 by 40 pages give 100 by 40, heights 40 and 60 give 60. -/
theorem imageCombine_dimensions (rb : Bool) (junk : Nat → QRgb) (A B : QImage) :
    ((imageCombine rb junk [A]).width = A.width ∧
      (imageCombine rb junk [A]).height = A.height) ∧
    ((imageCombine rb junk [A, B]).width = A.width + B.width ∧
      (imageCombine rb junk [A, B]).height = max A.height B.height) ∧
    ((imageCombine rb junk [page 50 40 0, page 50 40 0]).width = 100 ∧
      (imageCombine rb junk [page 50 40 0, page 50 40 0]).height = 40) ∧
    (imageCombine rb junk [page 50 40 0, page 50 60 0]).height = 60 := by
  refine ⟨⟨?_, ?_⟩, ⟨?_, ?_⟩, ⟨rfl, rfl⟩, rfl⟩ <;>
    simp [imageCombine, combinedWidth, combinedHeight]

/-- C5: in the column band `[sw, sw + t.w)` of every image `t` of the layout
`pre ++ t :: post` (so `sw` is the total width of `pre`), every cell of the
composite `C` in a row of the top band `[0, (C.h - t.h)/2)` or of the bottom
band `[(C.h - t.h)/2 + t.h, C.h)` is `0xFFFFFFFF`. -/
theorem imageCombine_white_padding (rb : Bool) (junk : Nat → QRgb)
    (imgs pre post : List QImage) (t : QImage)
    (hvec : (if rb then imgs.reverse else imgs) = pre ++ t :: post)
    (x r : Nat) (hx : x < t.width)
    (hband : r < ((imageCombine rb junk imgs).height - t.height) / 2 ∨
      (((imageCombine rb junk imgs).height - t.height) / 2 + t.height ≤ r ∧
        r < (imageCombine rb junk imgs).height)) :
    (imageCombine rb junk imgs).pixel (combinedWidth pre + x) r = some 4294967295 := by
  have hh : (imageCombine rb junk imgs).height = combinedHeight imgs := rfl
  rw [hh] at hband
  rw [← white_eq]
  rcases hband with h | ⟨h1, h2⟩
  · rw [imageCombine_cell rb junk imgs pre post t hvec x r hx (by omega),
      if_neg (by omega), if_neg (by omega)]
  · rw [imageCombine_cell rb junk imgs pre post t hvec x r hx h2, if_pos (by omega)]

/-- C5, at a concrete input: pages of heights 40 and 60; row 9 above the
shorter page is white. -/
theorem imageCombine_white_padding_witness :
    (imageCombine false (fun _ => 7) [page 2 40 0, page 2 60 0]).pixel
      (combinedWidth [] + 1) 9 = some 4294967295 :=
  imageCombine_white_padding false (fun _ => 7) [page 2 40 0, page 2 60 0] []
    [page 2 60 0] (page 2 40 0) rfl 1 9 (by decide) (Or.inl (by decide))

/-! ## Claims on the resamplers and the scaler -/

/-- C7: at scale 1.0 each of the three resamplers returns the ARGB image it
was given: same width, same height, same pixels. -/
theorem resampler_identity (past : Int → QRgb) (I : QImage) (hI : I.WF) :
    nn I 1 = I ∧ bl past I 1 = I ∧ bc I 1 = I :=
  ⟨nn_one I hI, bl_one past I hI, bc_one I hI⟩

/-- C7, at a concrete input: a 2 by 2 image. -/
theorem resampler_identity_witness :
    nn img22 1 = img22 ∧ bl (fun _ => 77) img22 1 = img22 ∧ bc img22 1 = img22 :=
  resampler_identity (fun _ => 77) img22 (by unfold QImage.WF; exact ⟨rfl, by decide⟩)

theorem resample_dim (n : Nat) (s : ℚ) (hs : 0 < s) :
    (((toInt (((n : Int) : ℚ) * s)).toNat : Nat) : Int) = ⌊(n : ℚ) * s⌋ := by
  have h0 : (0 : ℚ) ≤ ((n : Int) : ℚ) * s := by positivity
  rw [toInt_of_nonneg _ h0, Int.toNat_of_nonneg (Int.floor_nonneg.mpr h0), Int.cast_natCast]

/-- C9: for an image `I` of even width and even height, doubling it with
`nn` and halving the result with `nn` gives `I` back. -/
theorem nn_double_half (I : QImage) (hI : I.WF) (hw : Even I.width) (hh : Even I.height) :
    nn (nn I 2) (1 / 2) = I :=
  nn_two_half I hI

/-- C9, at a concrete input: a 2 by 2 image. -/
theorem nn_double_half_witness : nn (nn img22 2) (1 / 2) = img22 :=
  nn_double_half img22 (by unfold QImage.WF; exact ⟨rfl, by decide⟩)
    (by decide) (by decide)

theorem qFuzzyCompare_one : qFuzzyCompare 1 1 = true := by
  simp [qFuzzyCompare]

/-- C10: with images in the playlist, in `FIT_WINDOW` mode and with a
composite no wider and no higher than the widget, `imageScale` stores the scale
1.0 and the scaled image is the composite. -/
theorem imageScale_fit_window_fits (past : Int → QRgb) (v : Viewer)
    (hne : v.img_count ≠ 0) (hmode : v.vmode = ViewMode.FIT_WINDOW)
    (hw : (v.img_combined.width : Int) ≤ v.width)
    (hh : (v.img_combined.height : Int) ≤ v.height) :
    (v.imageScale past).scale_value = 1 ∧
      (v.imageScale past).img_scaled = v.img_combined := by
  have hs : v.chosenScale = 1 := by
    unfold Viewer.chosenScale
    simp only [hmode]
    rw [if_neg (by decide), if_neg (by decide), if_neg (not_lt.mpr hw),
      if_neg (not_lt.mpr hh)]
    simp
  unfold Viewer.imageScale
  have hne2 : (v.img_count == 0) = false := beq_false_of_ne hne
  simp only [hne2, hs, qFuzzyCompare_one]
  exact ⟨rfl, rfl⟩

/-- C10, at a concrete input: a 100 by 40 composite in a widget of 200 by
200. -/
theorem imageScale_fit_window_fits_witness :
    (fitViewer.imageScale (fun _ => 0)).scale_value = 1 ∧
      (fitViewer.imageScale (fun _ => 0)).img_scaled = fitViewer.img_combined :=
  imageScale_fit_window_fits (fun _ => 0) fitViewer (by decide) rfl (by decide) (by decide)

/-! ## Scale selection -/

/-- C11: with images in the playlist, `imageScale` stores the scale 1.0 in
`FULLSIZE`, the stored factor in `CUSTOM_SCALE`, `min(ws, hs)` in `FIT_WINDOW`
and `ws` in `FIT_IMAGE`, where `ws = W / C.width` if `W < C.width` else 1 and
`hs = H / C.height` if `H < C.height` else 1. -/
theorem imageScale_scale_selection (past : Int → QRgb) (v : Viewer) (ws hs : ℚ)
    (hne : v.img_count ≠ 0)
    (hws : ws = if v.width < (v.img_combined.width : Int) then
      (v.width : ℚ) / (v.img_combined.width : ℚ) else 1)
    (hhs : hs = if v.height < (v.img_combined.height : Int) then
      (v.height : ℚ) / (v.img_combined.height : ℚ) else 1) :
    (v.imageScale past).scale_value =
      match v.vmode with
      | ViewMode.FULLSIZE => 1
      | ViewMode.CUSTOM_SCALE => v.scale_value
      | ViewMode.FIT_WINDOW => min ws hs
      | ViewMode.FIT_IMAGE => ws := by
  have hne2 : (v.img_count == 0) = false := beq_false_of_ne hne
  have hsc : (v.imageScale past).scale_value = v.chosenScale := by
    unfold Viewer.imageScale
    simp only [hne2, Bool.false_eq_true, if_false]
    split <;> rfl
  rw [hsc]
  unfold Viewer.chosenScale
  simp only [Int.cast_natCast, ← hws, ← hhs]
  cases hm : v.vmode
  · simp
  · simp only [if_neg (by decide : ¬ ViewMode.FIT_WINDOW = ViewMode.CUSTOM_SCALE),
      if_neg (by decide : ¬ ViewMode.FIT_WINDOW = ViewMode.FULLSIZE), if_true]
    by_cases h : ws > hs
    · rw [if_pos h, min_eq_right (le_of_lt h)]
    · rw [if_neg h, min_eq_left (not_lt.mp h)]
  · simp
  · simp

/-- C11, at a concrete input: a 100 by 40 composite in a widget of 50 by 50
under `FIT_WINDOW` gets the scale 0.5. -/
theorem imageScale_scale_selection_witness :
    (halfViewer.imageScale (fun _ => 0)).scale_value = 1 / 2 := by
  have h := imageScale_scale_selection (fun _ => 0) halfViewer (1 / 2) 1 (by decide)
    (by norm_num [halfViewer, page]) (by norm_num [halfViewer, page])
  rw [h]
  show min (1 / 2 : ℚ) 1 = 1 / 2
  norm_num

/-! ## Advancing the cursor -/

theorem tmod_fix_eq_emod (a c : Int) (hc : 0 < c) (h : -c ≤ a) :
    (if a.tmod c < 0 then a.tmod c + c else a.tmod c) = a % c := by
  by_cases h0 : 0 ≤ a
  · have h1 : a.tmod c = a % c := Int.tmod_eq_emod h0 (le_of_lt hc)
    have h2 : 0 ≤ a % c := Int.emod_nonneg _ (ne_of_gt hc)
    rw [h1, if_neg (by omega)]
  · by_cases h3 : a = -c
    · subst h3
      have h1 : (-c).tmod c = 0 := by
        rw [Int.tmod_def, Int.neg_tdiv, Int.tdiv_self (ne_of_gt hc)]
        ring
      have h2 : (-c) % c = 0 := by simp
      rw [h1, h2, if_neg (by omega)]
    · have h1 : a.tmod c = a := tmod_neg_small a c (by omega) (by omega)
      have h2 : a % c = a + c := by
        have : (a + c) % c = a + c := Int.emod_eq_of_lt (by omega) (by omega)
        rw [← this]
        simp
      rw [h1, if_pos (by omega), h2]

/-- On a playlist whose count is the list length, with the cursor in range
and a non-negative capacity, `startPrefetch` returns and leaves the playlist,
the count, the cursor and the modes as they are. -/
theorem startPrefetch_keeps (v : ImageViewer)
    (hlen : (v.playlist.length : Int) = v.img_count)
    (h0 : 0 ≤ v.index) (h1 : v.index < v.img_count) (hK : 0 ≤ v.cache_maxCost) :
    ∃ v', v.startPrefetch = some v' ∧ v'.index = v.index ∧
      v'.img_count = v.img_count ∧ v'.playlist = v.playlist ∧
      v'.spread_view = v.spread_view ∧ v'.rightbinding = v.rightbinding ∧
      v'.shows = v.shows := by
  unfold ImageViewer.startPrefetch
  by_cases hcond : (!v.prfter_running && !v.empty) = true
  · have hrows := prefetchRows_eq v.index v.img_count v.cache_maxCost (by omega) h0 hK
    have hcol : collect v.item
        (ImageViewer.prefetchRows v.index v.count v.getImageCacheSize) =
        some ((ImageViewer.prefetchRows v.index v.img_count v.cache_maxCost).map
          (fun ti => (v.item ti).getD ⟨0, File.invalid⟩)) := by
      apply collect_eq_some
      intro ti hti
      simp only [ImageViewer.count, ImageViewer.getImageCacheSize] at hti
      rw [hrows] at hti
      simp only [List.mem_map] at hti
      obtain ⟨i, _, rfl⟩ := hti
      exact item_isSome_of_lt v _ (Int.emod_nonneg _ (by omega))
        (by rw [hlen]; exact Int.emod_lt_of_pos _ (by omega))
    rw [if_pos hcond, hcol]
    exact ⟨_, rfl, rfl, rfl, rfl, rfl, rfl, rfl⟩
  · rw [if_neg hcond]
    exact ⟨v, rfl, rfl, rfl, rfl, rfl, rfl, rfl⟩

theorem showImages_keeps (v : ImageViewer)
    (hlen : (v.playlist.length : Int) = v.img_count)
    (h0 : 0 ≤ v.index) (h1 : v.index < v.img_count) (hK : 0 ≤ v.cache_maxCost) :
    ∃ v', v.showImages = some v' ∧ v'.index = v.index ∧
      v'.img_count = v.img_count ∧ v'.playlist = v.playlist ∧
      v'.spread_view = v.spread_view ∧ v'.rightbinding = v.rightbinding ∧
      v'.shows = v.shows + 1 := by
  obtain ⟨w, hw, e1, e2, e3, e4, e5, e6⟩ := startPrefetch_keeps v hlen h0 h1 hK
  unfold ImageViewer.showImages
  rw [hw]
  exact ⟨_, rfl, e1, e2, e3, e4, e5, by simp [e6]⟩

theorem countShowImages_range (v : ImageViewer) (h : 1 ≤ v.img_count) :
    1 ≤ v.countShowImages ∧ v.countShowImages ≤ v.img_count ∧ v.countShowImages ≤ 2 := by
  unfold ImageViewer.countShowImages ImageViewer.count
  cases v.spread_view <;> simp <;> omega

/-- C12: on a playlist of `N ≥ 1` items with the cursor `c` in `[0, N)` and
`d = countShowImages()`, `nextImages` returns with the cursor at
`(c + d) mod N` and `previousImages` with the cursor at the non-negative
residue `(c - d) mod N`; both are in `[0, N)` and the count stays `N`. -/
theorem advance_cursor (v : ImageViewer) (N c d : Int) (hN : 1 ≤ N)
    (hlen : (v.playlist.length : Int) = N) (hcount : v.img_count = N)
    (hidx : v.index = c) (hc0 : 0 ≤ c) (hcN : c < N) (hd : d = v.countShowImages)
    (hK : 0 ≤ v.cache_maxCost) :
    (∃ v', v.nextImages = some v' ∧ v'.index = (c + d) % N ∧
      0 ≤ v'.index ∧ v'.index < N ∧ v'.img_count = N) ∧
    (∃ v', v.previousImages = some v' ∧ v'.index = (c - d) % N ∧
      0 ≤ v'.index ∧ v'.index < N ∧ v'.img_count = N) := by
  have hne : v.empty = false := by
    simp only [ImageViewer.empty, ImageViewer.count, hcount]
    exact beq_false_of_ne (by omega)
  obtain ⟨hd1, hd2, _⟩ := countShowImages_range v (by omega)
  rw [← hd] at hd1 hd2
  rw [hcount] at hd2
  have hNpos : (0 : Int) < N := by omega
  constructor
  · have hi : (v.index + v.countShowImages).tmod v.count = (c + d) % N := by
      rw [← hd, hidx, ImageViewer.count, hcount]
      exact Int.tmod_eq_emod (by omega) (by omega)
    have hr0 : 0 ≤ (c + d) % N := Int.emod_nonneg _ (by omega)
    have hr1 : (c + d) % N < N := Int.emod_lt_of_pos _ hNpos
    obtain ⟨w, hw, e1, e2, _⟩ := showImages_keeps { v with index := (c + d) % N }
      (by simpa [hcount] using hlen) hr0 (by simpa [hcount] using hr1) hK
    refine ⟨w, ?_, e1, ?_, ?_, ?_⟩
    · unfold ImageViewer.nextImages
      rw [hne, hi]
      exact hw
    · rw [e1]; exact hr0
    · rw [e1]; exact hr1
    · rw [e2]; exact hcount
  · have hi : (if (v.index - v.countShowImages).tmod v.count < 0 then
        (v.index - v.countShowImages).tmod v.count + v.count
        else (v.index - v.countShowImages).tmod v.count) = (c - d) % N := by
      rw [← hd, hidx, ImageViewer.count, hcount]
      exact tmod_fix_eq_emod (c - d) N hNpos (by omega)
    have hr0 : 0 ≤ (c - d) % N := Int.emod_nonneg _ (by omega)
    have hr1 : (c - d) % N < N := Int.emod_lt_of_pos _ hNpos
    obtain ⟨w, hw, e1, e2, _⟩ := showImages_keeps { v with index := (c - d) % N }
      (by simpa [hcount] using hlen) hr0 (by simpa [hcount] using hr1) hK
    refine ⟨w, ?_, e1, ?_, ?_, ?_⟩
    · unfold ImageViewer.previousImages
      rw [hne]
      simp only [Bool.false_eq_true, if_false]
      rw [hi]
      exact hw
    · rw [e1]; exact hr0
    · rw [e1]; exact hr1
    · rw [e2]; exact hcount

/-- C12, at a concrete input: three items in spread view, cursor on row 2;
forward gives `(2 + 2) mod 3 = 1`, backward `(2 - 2) mod 3 = 0`. -/
theorem advance_cursor_witness :
    (∃ v', threeSpread.nextImages = some v' ∧ v'.index = (2 + 2) % 3 ∧
      0 ≤ v'.index ∧ v'.index < 3 ∧ v'.img_count = 3) ∧
    (∃ v', threeSpread.previousImages = some v' ∧ v'.index = (2 - 2) % 3 ∧
      0 ≤ v'.index ∧ v'.index < 3 ∧ v'.img_count = 3) :=
  advance_cursor threeSpread 3 2 2 (by decide) rfl rfl rfl (by decide) (by decide)
    (by decide) (by decide)

/-! ## Removing one item -/

/-- C13 (the rule is broken by the code): three items in spread view with
the cursor on row 2, so that rows 2 and 0 are shown. Removing the single item
in row 0 (`r = 0 < c = 2`) leaves two items and the cursor at 2, not at
`c - 1 = 1`. -/
theorem remove_wrapped_shown_keeps_cursor :
    threeSpread.count = 3 ∧ threeSpread.index = 2 ∧ threeSpread.row 0 = 0 ∧
    ∃ v, threeSpread.playlistItemRemove [0] = some v ∧ v.count = 2 ∧ v.index = 2 := by
  refine ⟨by decide, by decide, by decide, _, rfl, ?_, ?_⟩ <;> decide

/-! ## The prefetch window has no repetition -/

theorem length_le_cost (ns : List CacheNode) (h : ∀ n ∈ ns, 1 ≤ n.cost) :
    (ns.length : Int) ≤ QCache.cost ns := by
  induction ns with
  | nil => simp [QCache.cost]
  | cons a as ih =>
    have h1 := h a (List.mem_cons_self a as)
    have h2 := ih (fun n hn => h n (List.mem_cons_of_mem a hn))
    simp only [QCache.cost, List.map_cons, List.sum_cons, List.length_cons] at h2 ⊢
    push_cast
    omega

theorem nodes_nil_of_zero (c : QCache) (hinv : c.Inv) (hmx : c.mx = 0) : c.nodes = [] := by
  have h1 := length_le_cost c.nodes hinv.1
  have h2 := hinv.2
  unfold QCache.totalCost at h2
  rw [hmx] at h2
  have : c.nodes.length = 0 := by omega
  exact List.length_eq_zero.mp this

theorem trimLru_zero (ns : List CacheNode) (h : ∀ n ∈ ns, 1 ≤ n.cost) :
    QCache.trimLru 0 ns = [] := by
  induction ns with
  | nil => rfl
  | cons a as ih =>
    have hpos : QCache.cost (a :: as) > 0 := by
      have := length_le_cost (a :: as) h
      simp only [List.length_cons] at this
      push_cast at this
      omega
    unfold QCache.trimLru
    rw [if_pos hpos]
    exact ih (fun n hn => h n (List.mem_cons_of_mem a hn))

/-- Setting the capacity to 0 empties a cache whose nodes all cost at least
1, and the emptied cache is within its capacity. -/
theorem setImageCacheSize_zero (s : Store) (h : ∀ n ∈ s.cache.nodes, 1 ≤ n.cost) :
    (setImageCacheSize 0 s).cache.mx = 0 ∧ (setImageCacheSize 0 s).cache.nodes = [] ∧
      (setImageCacheSize 0 s).cache.Inv := by
  have hn : (setImageCacheSize 0 s).cache.nodes = [] := by
    simp only [setImageCacheSize, Store.lock, Store.access, Store.unlock, QCache.setMaxCost,
      QCache.trim]
    rw [trimLru_zero _ (fun n hn => h n (List.mem_reverse.mp hn))]
    rfl
  refine ⟨rfl, hn, ?_, ?_⟩
  · intro n hmem
    rw [hn] at hmem
    exact absurd hmem (List.not_mem_nil n)
  · unfold QCache.totalCost
    rw [hn]
    exact le_refl (0 : Int)

theorem readData_zero (disk : Disk) (f : File) (s : Store) (hmx : s.cache.mx = 0)
    (hnil : s.cache.nodes = []) :
    (readData disk f s).1.cache = s.cache ∧
      (readData disk f s).2 = Fetched.ofPtr (disk.read f) := by
  have hc : s.cache.contains f.createKey = false := by
    simp [QCache.contains, hnil]
  unfold readData Disk.read
  simp only [Store.lock, Store.access, Store.unlock, hc, QCache.maxCost, hmx,
    Bool.false_eq_true, if_false, lt_self_iff_false]
  cases f.fileType with
  | INVALID => exact ⟨rfl, rfl⟩
  | RAW =>
    simp only []
    cases disk.readImageData f <;> exact ⟨rfl, rfl⟩
  | ARCHIVE =>
    simp only []
    cases disk.readArchiveData f <;> exact ⟨rfl, rfl⟩

/-- C14: with a cache capacity of 0 (and a cache filled by this program, so
empty), `readData` returns what the file system gives for the file and leaves
the cache as it is; `startPrefetch` on an idle prefetcher and a non-empty
playlist schedules the empty list; `Prefetcher::run` only reads `maxCost()`
and returns: no file is read, nothing is inserted, the cache is as before. -/
theorem capacity_zero_disables_caching (disk : Disk) (f : File) (s : Store)
    (termAt : Nat → Bool) (plist : List File) (v : ImageViewer)
    (hmx : s.cache.mx = 0) (hinv : s.cache.Inv)
    (hv : v.cache_maxCost = 0) (hidle : v.prfter_running = false)
    (hcount : 1 ≤ v.img_count) :
    ((readData disk f s).1.cache = s.cache ∧
      (readData disk f s).2 = Fetched.ofPtr (disk.read f)) ∧
    (∃ v', v.startPrefetch = some v' ∧ v'.prfter_plist = [] ∧ v'.prft_now = []) ∧
    ((prefetcherRun disk termAt plist s).cache = s.cache ∧
      (prefetcherRun disk termAt plist s).log
        = s.log ++ [⟨AccessKind.maxCost, s.held⟩]) := by
  refine ⟨readData_zero disk f s hmx (nodes_nil_of_zero s.cache hinv hmx), ?_, ?_⟩
  · have hne : v.empty = false := by
      simp only [ImageViewer.empty, ImageViewer.count]
      exact beq_false_of_ne (by omega)
    have hrows : ImageViewer.prefetchRows v.index v.count v.getImageCacheSize = [] := by
      simp only [ImageViewer.prefetchRows, ImageViewer.count, ImageViewer.getImageCacheSize, hv]
      rw [min_eq_left (by omega : (0 : Int) ≤ v.img_count)]
      rfl
    refine ⟨_, by
      simp only [ImageViewer.startPrefetch, hidle, hne, hrows, collect]
      rfl, rfl, rfl⟩
  · unfold prefetcherRun
    simp only [Store.access, QCache.maxCost, hmx]
    exact ⟨rfl, rfl⟩

/-- C14, at a concrete input: the file `a.png` on a disk that holds it, an
empty cache of capacity 0 and a one-item playlist. -/
theorem capacity_zero_disables_caching_witness :
    ((readData oneFileDisk fileA (emptyStore 0)).1.cache = (emptyStore 0).cache ∧
      (readData oneFileDisk fileA (emptyStore 0)).2
        = Fetched.ofPtr (oneFileDisk.read fileA)) ∧
    (∃ v', zeroCapacityViewer.startPrefetch = some v' ∧ v'.prfter_plist = [] ∧
      v'.prft_now = []) ∧
    ((prefetcherRun oneFileDisk (fun _ => false) [fileA] (emptyStore 0)).cache
        = (emptyStore 0).cache ∧
      (prefetcherRun oneFileDisk (fun _ => false) [fileA] (emptyStore 0)).log
        = (emptyStore 0).log ++ [⟨AccessKind.maxCost, (emptyStore 0).held⟩]) :=
  capacity_zero_disables_caching oneFileDisk fileA (emptyStore 0) (fun _ => false)
    [fileA] zeroCapacityViewer rfl
    (by unfold QCache.Inv; exact ⟨by decide, by decide⟩) rfl rfl (by decide)

/-! ## The mutex discipline -/

/-- C20 (a failed read is recorded): a prefetch pass over the unreadable file
`missing.png`, from an empty cache of capacity 20. `readImageData` fails, and
`run` inserts the null pointer under the key: afterwards the cache contains
the key, its object is null, and `readData` of the same file hits the cache
and dereferences the null pointer. -/
theorem prefetch_records_failed_read :
    noDisk.read missingFile = none ∧
    (prefetcherRun noDisk (fun _ => false) [missingFile] (emptyStore 20)).cache.contains
      missingFile.createKey = true ∧
    ((prefetcherRun noDisk (fun _ => false) [missingFile] (emptyStore 20)).cache.object
      missingFile.createKey).2 = none ∧
    (readData noDisk missingFile
      (prefetcherRun noDisk (fun _ => false) [missingFile] (emptyStore 20))).2
      = Fetched.crash ∧
    (readData noDisk missingFile (emptyStore 20)).2 = Fetched.null ∧
    (readData noDisk missingFile (emptyStore 20)).1.cache.contains
      missingFile.createKey = false := by
  decide

/-- A miss on a file that cannot be read makes `readData` return the null
pointer, and the first loop of `showImages` dereferences it. -/
theorem loadShown_unreadable (disk : Disk) (decode : QByteArray → QImage) (f : File)
    (rest : List File) (s : Store) (hc : s.cache.contains f.createKey = false)
    (hr : disk.read f = none) : loadShown disk decode (f :: rest) s = none := by
  have h : (readData disk f s).2 = Fetched.null := by
    unfold Disk.read at hr
    unfold readData
    simp only [Store.lock, Store.access, Store.unlock, hc, Bool.false_eq_true, if_false]
    cases hft : f.fileType with
    | INVALID => rfl
    | RAW =>
      rw [hft] at hr
      simp only [] at hr ⊢
      rw [hr]
    | ARCHIVE =>
      rw [hft] at hr
      simp only [] at hr ⊢
      rw [hr]
  unfold loadShown
  generalize readData disk f s = r at h
  obtain ⟨s1, o⟩ := r
  simp only at h
  subst h
  rfl

/-- C15 (a failed read is not recovered): a viewer whose single shown item is
the unreadable file `missing.png`. `readData` returns the null pointer and
`showImages` dereferences it, so `showImages` has no result; with a readable
file it returns. -/
theorem showImages_unreadable_fails :
    (readData noDisk missingFile missingSession.store).2 = Fetched.null ∧
    (missingSession.showImages noDisk sampleDecode (fun _ => 0) (fun _ => 0)).isNone = true ∧
    (readableSession.showImages oneFileDisk sampleDecode (fun _ => 0)
      (fun _ => 0)).isSome = true := by
  refine ⟨by decide, rfl, rfl⟩

/-! ## The bilinear kernel -/

theorem qRgba_unpack (r g b a : Int) (hr : 0 ≤ r ∧ r ≤ 255) (hg : 0 ≤ g ∧ g ≤ 255)
    (hb : 0 ≤ b ∧ b ≤ 255) (ha : 0 ≤ a ∧ a ≤ 255) :
    qRed (qRgba r g b a) = r ∧ qGreen (qRgba r g b a) = g ∧
    qBlue (qRgba r g b a) = b ∧ qAlpha (qRgba r g b a) = a := by
  unfold qRgba qRed qGreen qBlue qAlpha
  obtain ⟨r0, r1⟩ := hr
  obtain ⟨g0, g1⟩ := hg
  obtain ⟨b0, b1⟩ := hb
  obtain ⟨a0, a1⟩ := ha
  have er : (r % 256).toNat = r.toNat := by rw [Int.emod_eq_of_lt r0 (by omega)]
  have eg : (g % 256).toNat = g.toNat := by rw [Int.emod_eq_of_lt g0 (by omega)]
  have eb : (b % 256).toNat = b.toNat := by rw [Int.emod_eq_of_lt b0 (by omega)]
  have ea : (a % 256).toNat = a.toNat := by rw [Int.emod_eq_of_lt a0 (by omega)]
  rw [er, eg, eb, ea]
  refine ⟨?_, ?_, ?_, ?_⟩
  · show (((a.toNat * 16777216 + r.toNat * 65536 + g.toNat * 256 + b.toNat) / 65536 % 256
      : Nat) : Int) = r
    omega
  · show (((a.toNat * 16777216 + r.toNat * 65536 + g.toNat * 256 + b.toNat) / 256 % 256
      : Nat) : Int) = g
    omega
  · show (((a.toNat * 16777216 + r.toNat * 65536 + g.toNat * 256 + b.toNat) % 256
      : Nat) : Int) = b
    omega
  · show (((a.toNat * 16777216 + r.toNat * 65536 + g.toNat * 256 + b.toNat) / 16777216
      : Nat) : Int) = a
    omega

/-- A mix of four values of `[0, 255]` with the bilinear weights of two
fractions stays in `[0, 255]` after truncation. -/
theorem mix_range (du dv : ℚ) (a b c d : Int) (hu0 : 0 ≤ du) (hu1 : du ≤ 1)
    (hv0 : 0 ≤ dv) (hv1 : dv ≤ 1) (ha : 0 ≤ a ∧ a ≤ 255) (hb : 0 ≤ b ∧ b ≤ 255)
    (hc : 0 ≤ c ∧ c ≤ 255) (hd : 0 ≤ d ∧ d ≤ 255) :
    0 ≤ toInt ((1 - du) * (1 - dv) * (a : ℚ) + (1 - du) * dv * (b : ℚ)
        + du * (1 - dv) * (c : ℚ) + du * dv * (d : ℚ)) ∧
      toInt ((1 - du) * (1 - dv) * (a : ℚ) + (1 - du) * dv * (b : ℚ)
        + du * (1 - dv) * (c : ℚ) + du * dv * (d : ℚ)) ≤ 255 := by
  have a0 : (0 : ℚ) ≤ (a : ℚ) := by exact_mod_cast ha.1
  have a1 : (a : ℚ) ≤ 255 := by exact_mod_cast ha.2
  have b0 : (0 : ℚ) ≤ (b : ℚ) := by exact_mod_cast hb.1
  have b1 : (b : ℚ) ≤ 255 := by exact_mod_cast hb.2
  have c0 : (0 : ℚ) ≤ (c : ℚ) := by exact_mod_cast hc.1
  have c1 : (c : ℚ) ≤ 255 := by exact_mod_cast hc.2
  have d0 : (0 : ℚ) ≤ (d : ℚ) := by exact_mod_cast hd.1
  have d1 : (d : ℚ) ≤ 255 := by exact_mod_cast hd.2
  have w1 : 0 ≤ (1 - du) * (1 - dv) := mul_nonneg (by linarith) (by linarith)
  have w2 : 0 ≤ (1 - du) * dv := mul_nonneg (by linarith) hv0
  have w3 : 0 ≤ du * (1 - dv) := mul_nonneg hu0 (by linarith)
  have w4 : 0 ≤ du * dv := mul_nonneg hu0 hv0
  have hlo : 0 ≤ (1 - du) * (1 - dv) * (a : ℚ) + (1 - du) * dv * (b : ℚ)
      + du * (1 - dv) * (c : ℚ) + du * dv * (d : ℚ) := by
    have := mul_nonneg w1 a0
    have := mul_nonneg w2 b0
    have := mul_nonneg w3 c0
    have := mul_nonneg w4 d0
    linarith
  have hhi : (1 - du) * (1 - dv) * (a : ℚ) + (1 - du) * dv * (b : ℚ)
      + du * (1 - dv) * (c : ℚ) + du * dv * (d : ℚ) ≤ 255 := by
    have h1 := mul_le_mul_of_nonneg_left a1 w1
    have h2 := mul_le_mul_of_nonneg_left b1 w2
    have h3 := mul_le_mul_of_nonneg_left c1 w3
    have h4 := mul_le_mul_of_nonneg_left d1 w4
    have hsum : (1 - du) * (1 - dv) * 255 + (1 - du) * dv * 255 + du * (1 - dv) * 255
        + du * dv * 255 = 255 := by ring
    linarith
  rw [toInt_of_nonneg _ hlo]
  constructor
  · exact Int.floor_nonneg.mpr hlo
  · have : ⌊(1 - du) * (1 - dv) * (a : ℚ) + (1 - du) * dv * (b : ℚ)
        + du * (1 - dv) * (c : ℚ) + du * dv * (d : ℚ)⌋ ≤ ⌊(255 : ℚ)⌋ := Int.floor_mono hhi
    simpa using this

theorem peekPast_lt (past : Int → QRgb) (S : QImage) (hS : S.WF)
    (hpast : ∀ i, past i < 4294967296) (i : Int) : peekPast past S i < 4294967296 := by
  unfold peekPast
  split
  · rename_i h
    rw [List.getD_eq_getElem _ _ h.2]
    exact hS.2 _ (List.getElem_mem _)
  · exact hpast i

theorem fract_range (q : ℚ) : 0 ≤ q - (⌊q⌋ : ℚ) ∧ q - (⌊q⌋ : ℚ) ≤ 1 := by
  have h1 := Int.floor_le q
  have h2 := Int.lt_floor_add_one q
  constructor <;> linarith

/-- The pixel computed by `bl` packs the four channel values of the
specification. -/
theorem blPixel_eq_spec (past : Int → QRgb) (S : QImage) (s : ℚ) (x y : Int) :
    blPixel past S s x y =
      qRgba (blSpecChannel qRed (memAt past S) S.width S.height s x y)
        (blSpecChannel qGreen (memAt past S) S.width S.height s x y)
        (blSpecChannel qBlue (memAt past S) S.width S.height s x y)
        (blSpecChannel qAlpha (memAt past S) S.width S.height s x y) := by
  simp only [blPixel, blSpecChannel, memAt, blDcache, blIcache, blYi0, blYi1]

theorem blSpecChannel_range (chan : QRgb → Int) (past : Int → QRgb) (S : QImage) (s : ℚ)
    (x y : Int) (hchan : ∀ a b, 0 ≤ chan (memAt past S a b) ∧ chan (memAt past S a b) ≤ 255) :
    0 ≤ blSpecChannel chan (memAt past S) S.width S.height s x y ∧
      blSpecChannel chan (memAt past S) S.width S.height s x y ≤ 255 := by
  unfold blSpecChannel
  exact mix_range _ _ _ _ _ _ (fract_range _).1 (fract_range _).2 (fract_range _).1
    (fract_range _).2 (hchan _ _) (hchan _ _) (hchan _ _) (hchan _ _)

/-- The four channels of the pixel computed by `bl` are the four channel
values of the specification. -/
theorem blPixel_channels (past : Int → QRgb) (S : QImage) (s : ℚ) (x y : Int)
    (hS : S.WF) (hpast : ∀ i, past i < 4294967296) :
    qRed (blPixel past S s x y)
      = blSpecChannel qRed (memAt past S) S.width S.height s x y ∧
    qGreen (blPixel past S s x y)
      = blSpecChannel qGreen (memAt past S) S.width S.height s x y ∧
    qBlue (blPixel past S s x y)
      = blSpecChannel qBlue (memAt past S) S.width S.height s x y ∧
    qAlpha (blPixel past S s x y)
      = blSpecChannel qAlpha (memAt past S) S.width S.height s x y := by
  have hlt : ∀ a b, memAt past S a b < 4294967296 := fun a b =>
    peekPast_lt past S hS hpast _
  have hR := blSpecChannel_range qRed past S s x y
    (fun a b => (channels_range _ (hlt a b)).1)
  have hG := blSpecChannel_range qGreen past S s x y
    (fun a b => (channels_range _ (hlt a b)).2.1)
  have hB := blSpecChannel_range qBlue past S s x y
    (fun a b => (channels_range _ (hlt a b)).2.2.1)
  have hA := blSpecChannel_range qAlpha past S s x y
    (fun a b => (channels_range _ (hlt a b)).2.2.2)
  rw [blPixel_eq_spec]
  exact qRgba_unpack _ _ _ _ hR hG hB hA

theorem toInt_three : (toInt ((((2 : Nat) : Int) : ℚ) * (3 / 2))).toNat = 3 := by
  have h := resample_dim 2 (3 / 2) (by norm_num)
  have e : ⌊((2 : Nat) : ℚ) * (3 / 2)⌋ = 3 := by
    rw [Int.floor_eq_iff]; constructor <;> norm_num
  rw [e] at h
  omega

/-- C19 (the reads leave the buffer): a 2 by 2 source enlarged by 3/2. The
target is 3 by 3, and for its pixel `(2, 2)` the kernel `bl` reads the offsets
`3, 4, 3, 4`; offset 4 is `w * h`, one past the last pixel, where the read
returns the memory after the buffer. That memory enters the pixel: all four
source pixels are opaque, yet with zeros after the buffer the alpha of the
pixel `(2, 2)` is 170. -/
theorem bl_reads_past_buffer :
    (bl (fun _ => 0) img22 (3 / 2)).width = 3 ∧ (bl (fun _ => 0) img22 (3 / 2)).height = 3 ∧
    blReads 2 2 (3 / 2) 2 2 = [3, 4, 3, 4] ∧ ¬ ((4 : Int) < 2 * 2) ∧
    (∀ past : Int → QRgb, peekPast past img22 4 = past 4) ∧
    (∀ p ∈ img22.bits, qAlpha p = 255) ∧
    qAlpha (blPixel (fun _ => 0) img22 (3 / 2) 2 2) = 170 := by
  have hf : ⌊(2 : ℚ) / (3 / 2)⌋ = 1 := by
    rw [Int.floor_eq_iff]; constructor <;> norm_num
  refine ⟨toInt_three, toInt_three, ?_, by decide, fun past => rfl, by decide, ?_⟩
  · simp [blReads, blIcache, blYi0, blYi1, hf]
  · have e1 : memAt (fun _ => 0) img22 1 1 = 4294901760 := rfl
    have e2 : memAt (fun _ => 0) img22 2 1 = 0 := rfl
    have a1 : qAlpha 4294901760 = 255 := rfl
    have a2 : qAlpha 0 = 0 := rfl
    have hw : ((img22.width : Nat) : Int) = 2 := rfl
    have hh : ((img22.height : Nat) : Int) = 2 := rfl
    rw [(blPixel_channels (fun _ => 0) img22 (3 / 2) 2 2
      (by unfold QImage.WF; exact ⟨rfl, by decide⟩)
      (fun _ => (by decide : (0 : Nat) < 4294967296))).2.2.2]
    simp only [blSpecChannel, Int.cast_ofNat, hf, hw, hh]
    norm_num [e1, e2, a1, a2, toInt]

/-! ## The fitted scale -/

/-- With images in the playlist `imageScale` stores the chosen scale. -/
theorem imageScale_scale_value (past : Int → QRgb) (v : Viewer) (hne : v.img_count ≠ 0) :
    (v.imageScale past).scale_value = v.chosenScale := by
  have hne2 : (v.img_count == 0) = false := beq_false_of_ne hne
  unfold Viewer.imageScale
  simp only [hne2, Bool.false_eq_true, if_false]
  split <;> rfl

/-- The width factor `ws` of `imageScale` is in `[0, 1]` and scales the
composite width into the widget width. -/
theorem fit_factor (W : Int) (cw : Nat) (hcw : 1 ≤ cw) (hW : 0 ≤ W) :
    0 ≤ (if W < (cw : Int) then (W : ℚ) / ((cw : Int) : ℚ) else 1) ∧
    (if W < (cw : Int) then (W : ℚ) / ((cw : Int) : ℚ) else 1) ≤ 1 ∧
    ∀ s : ℚ, 0 ≤ s → s ≤ (if W < (cw : Int) then (W : ℚ) / ((cw : Int) : ℚ) else 1) →
      ⌊(cw : ℚ) * s⌋ ≤ W := by
  have hpos : (0 : ℚ) < ((cw : Int) : ℚ) := by
    have : (0 : Int) < (cw : Int) := by omega
    exact_mod_cast this
  have hWq : (0 : ℚ) ≤ (W : ℚ) := by exact_mod_cast hW
  by_cases h : W < (cw : Int)
  · simp only [if_pos h]
    have hlt : (W : ℚ) < ((cw : Int) : ℚ) := by exact_mod_cast h
    refine ⟨div_nonneg hWq (le_of_lt hpos), (div_le_one hpos).mpr (le_of_lt hlt), ?_⟩
    intro s _ hs
    have h1 : (cw : ℚ) * s ≤ (W : ℚ) := by
      have h2 : ((cw : Int) : ℚ) * s ≤ ((cw : Int) : ℚ) * ((W : ℚ) / ((cw : Int) : ℚ)) :=
        mul_le_mul_of_nonneg_left hs (le_of_lt hpos)
      rw [mul_div_cancel₀ _ (ne_of_gt hpos)] at h2
      simpa using h2
    have h3 : ⌊(cw : ℚ) * s⌋ ≤ ⌊(W : ℚ)⌋ := Int.floor_mono h1
    simpa using h3
  · simp only [if_neg h]
    refine ⟨zero_le_one, le_refl _, ?_⟩
    intro s _ hs
    have hle : ((cw : Int) : ℚ) ≤ (W : ℚ) := by exact_mod_cast (not_lt.mp h)
    have h1 : (cw : ℚ) * s ≤ (W : ℚ) := by
      have h2 : ((cw : Int) : ℚ) * s ≤ ((cw : Int) : ℚ) * 1 :=
        mul_le_mul_of_nonneg_left hs (le_of_lt hpos)
      rw [mul_one] at h2
      have h4 : (cw : ℚ) * s ≤ ((cw : Int) : ℚ) := by simpa using h2
      exact le_trans h4 hle
    have h3 : ⌊(cw : ℚ) * s⌋ ≤ ⌊(W : ℚ)⌋ := Int.floor_mono h1
    simpa using h3

/-- C23: with images in the playlist, a composite at least 1 by 1 and a
widget of width `W ≥ 0` and height `H ≥ 0`, the scale `s` stored by
`imageScale` satisfies, in `FIT_WINDOW` mode, `0 ≤ s ≤ 1`,
`floor(C.width * s) ≤ W` and `floor(C.height * s) ≤ H`, and in `FIT_IMAGE`
mode `floor(C.width * s) ≤ W`. -/
theorem fit_scale_fits_widget (past : Int → QRgb) (v : Viewer) (hne : v.img_count ≠ 0)
    (hcw : 1 ≤ v.img_combined.width) (hch : 1 ≤ v.img_combined.height)
    (hW : 0 ≤ v.width) (hH : 0 ≤ v.height) :
    (v.vmode = ViewMode.FIT_WINDOW →
      0 ≤ (v.imageScale past).scale_value ∧ (v.imageScale past).scale_value ≤ 1 ∧
      ⌊(v.img_combined.width : ℚ) * (v.imageScale past).scale_value⌋ ≤ v.width ∧
      ⌊(v.img_combined.height : ℚ) * (v.imageScale past).scale_value⌋ ≤ v.height) ∧
    (v.vmode = ViewMode.FIT_IMAGE →
      ⌊(v.img_combined.width : ℚ) * (v.imageScale past).scale_value⌋ ≤ v.width) := by
  rw [imageScale_scale_value past v hne]
  obtain ⟨w0, w1, wfit⟩ := fit_factor v.width v.img_combined.width hcw hW
  obtain ⟨h0, h1, hfit⟩ := fit_factor v.height v.img_combined.height hch hH
  constructor
  · intro hm
    have hs : v.chosenScale = min
        (if v.width < (v.img_combined.width : Int) then
          (v.width : ℚ) / ((v.img_combined.width : Int) : ℚ) else 1)
        (if v.height < (v.img_combined.height : Int) then
          (v.height : ℚ) / ((v.img_combined.height : Int) : ℚ) else 1) := by
      unfold Viewer.chosenScale
      simp only [hm, if_neg (by decide : ¬ ViewMode.FIT_WINDOW = ViewMode.CUSTOM_SCALE),
        if_neg (by decide : ¬ ViewMode.FIT_WINDOW = ViewMode.FULLSIZE), if_true]
      generalize (if v.width < (v.img_combined.width : Int) then
        (v.width : ℚ) / ((v.img_combined.width : Int) : ℚ) else 1) = ws
      generalize (if v.height < (v.img_combined.height : Int) then
        (v.height : ℚ) / ((v.img_combined.height : Int) : ℚ) else 1) = hs
      by_cases h : ws > hs
      · rw [if_pos h, min_eq_right (le_of_lt h)]
      · rw [if_neg h, min_eq_left (not_lt.mp h)]
    rw [hs]
    refine ⟨le_min w0 h0, le_trans (min_le_left _ _) w1, ?_, ?_⟩
    · exact wfit _ (le_min w0 h0) (min_le_left _ _)
    · exact hfit _ (le_min w0 h0) (min_le_right _ _)
  · intro hm
    have hs : v.chosenScale =
        (if v.width < (v.img_combined.width : Int) then
          (v.width : ℚ) / ((v.img_combined.width : Int) : ℚ) else 1) := by
      unfold Viewer.chosenScale
      simp only [hm, if_neg (by decide : ¬ ViewMode.FIT_IMAGE = ViewMode.CUSTOM_SCALE),
        if_neg (by decide : ¬ ViewMode.FIT_IMAGE = ViewMode.FULLSIZE),
        if_neg (by decide : ¬ ViewMode.FIT_IMAGE = ViewMode.FIT_WINDOW), if_true]
    rw [hs]
    exact wfit _ w0 (le_refl _)

/-- C23, at a concrete input: a 100 by 40 composite in a widget of 50 by 50
under `FIT_WINDOW`. -/
theorem fit_scale_fits_widget_witness :
    (halfViewer.vmode = ViewMode.FIT_WINDOW →
      0 ≤ (halfViewer.imageScale (fun _ => 0)).scale_value ∧
      (halfViewer.imageScale (fun _ => 0)).scale_value ≤ 1 ∧
      ⌊(halfViewer.img_combined.width : ℚ) *
        (halfViewer.imageScale (fun _ => 0)).scale_value⌋ ≤ halfViewer.width ∧
      ⌊(halfViewer.img_combined.height : ℚ) *
        (halfViewer.imageScale (fun _ => 0)).scale_value⌋ ≤ halfViewer.height) ∧
    (halfViewer.vmode = ViewMode.FIT_IMAGE →
      ⌊(halfViewer.img_combined.width : ℚ) *
        (halfViewer.imageScale (fun _ => 0)).scale_value⌋ ≤ halfViewer.width) :=
  fit_scale_fits_widget (fun _ => 0) halfViewer (by decide) (by decide) (by decide)
    (by decide) (by decide)

/-! ## The bicubic weights -/

/-- The four weights of `bc` for a fraction `f` of `[0, 1)` add up to 1. -/
theorem bicubic_h_sum (f : ℚ) (h0 : 0 ≤ f) (h1 : f < 1) :
    bicubic_h (1 + f) + bicubic_h f + bicubic_h (1 - f) + bicubic_h (2 - f) = 1 := by
  have e1 : bicubic_h (1 + f) = -((1 + f) * (1 + f) * (1 + f)) + 5 * ((1 + f) * (1 + f))
      - 8 * (1 + f) + 4 := by
    unfold bicubic_h
    simp only [abs_of_nonneg (by linarith : (0 : ℚ) ≤ 1 + f)]
    by_cases hz : 1 + f ≤ 1
    · have hf : f = 0 := by linarith
      subst hf
      norm_num
    · rw [if_neg hz, if_pos ⟨by linarith, by linarith⟩]
  have e2 : bicubic_h f = f * f * f - 2 * (f * f) + 1 := by
    unfold bicubic_h
    simp only [abs_of_nonneg h0]
    rw [if_pos (by linarith)]
  have e3 : bicubic_h (1 - f) = (1 - f) * (1 - f) * (1 - f) - 2 * ((1 - f) * (1 - f)) + 1 := by
    unfold bicubic_h
    simp only [abs_of_nonneg (by linarith : (0 : ℚ) ≤ 1 - f)]
    rw [if_pos (by linarith)]
  have e4 : bicubic_h (2 - f) = -((2 - f) * (2 - f) * (2 - f)) + 5 * ((2 - f) * (2 - f))
      - 8 * (2 - f) + 4 := by
    unfold bicubic_h
    simp only [abs_of_nonneg (by linarith : (0 : ℚ) ≤ 2 - f)]
    rw [if_neg (by linarith), if_pos ⟨by linarith, by linarith⟩]
  rw [e1, e2, e3, e4]
  ring

theorem bcWeights_sum (f : ℚ) (h0 : 0 ≤ f) (h1 : f < 1) :
    bcWeights f 0 + bcWeights f 1 + bcWeights f 2 + bcWeights f 3 = 1 :=
  bicubic_h_sum f h0 h1

/-- With weights that add up to 1 and a table holding one value, the product
of `bicubic_matmul` is that value. -/
theorem bicubic_matmul_const (d1 d3 : Nat → ℚ) (d2 : Nat → Nat → Int) (ch : Int)
    (h1 : d1 0 + d1 1 + d1 2 + d1 3 = 1) (h3 : d3 0 + d3 1 + d3 2 + d3 3 = 1)
    (h2 : ∀ i j, d2 i j = ch) : bicubic_matmul d1 d2 d3 = ch := by
  unfold bicubic_matmul
  simp only [h2]
  have e : (d1 0 * (ch : ℚ) + d1 1 * (ch : ℚ) + d1 2 * (ch : ℚ) + d1 3 * (ch : ℚ)) * d3 0
      + (d1 0 * (ch : ℚ) + d1 1 * (ch : ℚ) + d1 2 * (ch : ℚ) + d1 3 * (ch : ℚ)) * d3 1
      + (d1 0 * (ch : ℚ) + d1 1 * (ch : ℚ) + d1 2 * (ch : ℚ) + d1 3 * (ch : ℚ)) * d3 2
      + (d1 0 * (ch : ℚ) + d1 1 * (ch : ℚ) + d1 2 * (ch : ℚ) + d1 3 * (ch : ℚ)) * d3 3
      = (ch : ℚ) := by
    have : (d1 0 * (ch : ℚ) + d1 1 * (ch : ℚ) + d1 2 * (ch : ℚ) + d1 3 * (ch : ℚ))
        = (ch : ℚ) := by
      calc d1 0 * (ch : ℚ) + d1 1 * (ch : ℚ) + d1 2 * (ch : ℚ) + d1 3 * (ch : ℚ)
          = (d1 0 + d1 1 + d1 2 + d1 3) * (ch : ℚ) := by ring
        _ = (ch : ℚ) := by rw [h1, one_mul]
    rw [this]
    calc (ch : ℚ) * d3 0 + (ch : ℚ) * d3 1 + (ch : ℚ) * d3 2 + (ch : ℚ) * d3 3
        = (ch : ℚ) * (d3 0 + d3 1 + d3 2 + d3 3) := by ring
      _ = (ch : ℚ) := by rw [h3, mul_one]
  rw [e, toInt_intCast]

theorem toInt_fract (q : ℚ) (hq : 0 ≤ q) :
    0 ≤ q - ((toInt q : Int) : ℚ) ∧ q - ((toInt q : Int) : ℚ) < 1 := by
  rw [toInt_of_nonneg q hq]
  have h1 := Int.floor_le q
  have h2 := Int.lt_floor_add_one q
  constructor <;> linarith

/-- A read of a one-colour image at a clamped place gives the colour. -/
theorem peek_const (S : QImage) (c : QRgb) (hS : S.WF) (hconst : ∀ p ∈ S.bits, p = c)
    (X Y : Int) (hX0 : 0 ≤ X) (hX1 : X ≤ (S.width : Int) - 1) (hY0 : 0 ≤ Y)
    (hY1 : Y ≤ (S.height : Int) - 1) : S.peek (X + Y * (S.width : Int)) = c := by
  obtain ⟨x, rfl⟩ : ∃ x : Nat, X = (x : Int) := ⟨X.toNat, by omega⟩
  obtain ⟨y, rfl⟩ : ∃ y : Nat, Y = (y : Int) := ⟨Y.toNat, by omega⟩
  have hx : x < S.width := by omega
  have hy : y < S.height := by omega
  have hin : x + y * S.width < S.bits.length := by
    rw [hS.1]; exact offset_lt hx hy
  unfold QImage.peek
  rw [offset_cast, List.getD_eq_getElem _ _ hin]
  exact hconst _ (List.getElem_mem _)

theorem clamp_range (a n : Int) (hn : 1 ≤ n) :
    0 ≤ min (max a 0) (n - 1) ∧ min (max a 0) (n - 1) ≤ n - 1 := by
  constructor
  · exact le_min (le_max_right _ _) (by omega)
  · exact min_le_right _ _

/-- A pixel of `bc` over a one-colour image is that colour. -/
theorem bcPixel_const (S : QImage) (c : QRgb) (s : ℚ) (hS : S.WF)
    (hconst : ∀ p ∈ S.bits, p = c) (hs : 0 < s) (hw : 1 ≤ S.width) (hh : 1 ≤ S.height)
    (x y : Nat) : bcPixel S s (x : Int) (y : Int) = c := by
  have hc : c < 4294967296 := by
    have hin : 0 < S.bits.length := by
      rw [hS.1]; exact Nat.mul_pos hw hh
    have hmem : S.bits[0] ∈ S.bits := List.getElem_mem _
    have := hS.2 _ hmem
    rw [hconst _ hmem] at this
    exact this
  have hrd : ∀ (a b : Int), S.peek (min (max a 0) ((S.width : Int) - 1)
      + min (max b 0) ((S.height : Int) - 1) * (S.width : Int)) = c := by
    intro a b
    have h1 := clamp_range a (S.width : Int) (by exact_mod_cast hw)
    have h2 := clamp_range b (S.height : Int) (by exact_mod_cast hh)
    exact peek_const S c hS hconst _ _ h1.1 h1.2 h2.1 h2.2
  have hy0 : (0 : ℚ) ≤ ((y : Int) : ℚ) / s := by positivity
  have hx0 : (0 : ℚ) ≤ ((x : Int) : ℚ) / s := by positivity
  have hfy := toInt_fract _ hy0
  have hfx := toInt_fract _ hx0
  have hsy := bcWeights_sum _ hfy.1 hfy.2
  have hsx := bcWeights_sum _ hfx.1 hfx.2
  obtain ⟨⟨r0, r1⟩, ⟨g0, g1⟩, ⟨b0, b1⟩, ⟨a0, a1⟩⟩ := channels_range c hc
  unfold bcPixel
  simp only [hrd]
  rw [bicubic_matmul_const _ _ _ (qRed c) hsy hsx (fun _ _ => rfl),
    bicubic_matmul_const _ _ _ (qGreen c) hsy hsx (fun _ _ => rfl),
    bicubic_matmul_const _ _ _ (qBlue c) hsy hsx (fun _ _ => rfl),
    bicubic_matmul_const _ _ _ (qAlpha c) hsy hsx (fun _ _ => rfl),
    clamp_channel r0 r1, clamp_channel g0 g1, clamp_channel b0 b1, clamp_channel a0 a1]
  exact qRgba_channels c hc

theorem source_pos_of_target (n : Nat) (s : ℚ) (k : Nat)
    (h : k < (toInt (((n : Int) : ℚ) * s)).toNat) : 1 ≤ n := by
  rcases Nat.eq_zero_or_pos n with h0 | h0
  · subst h0
    have : toInt ((((0 : Nat) : Int) : ℚ) * s) = 0 := by
      simp [toInt]
    rw [this] at h
    exact absurd h (Nat.not_lt_zero _)
  · exact h0

/-- C21: for a fraction `f` with `0 ≤ f < 1` the four bicubic weights
`bicubic_h(1+f)`, `bicubic_h(f)`, `bicubic_h(1-f)`, `bicubic_h(2-f)` add up to
1; and for an ARGB image `S` whose pixels all have the colour `c` and a scale
`s > 0`, every pixel of `bc(S, s)` is `c`. -/
theorem bicubic_partition_of_unity :
    (∀ f : ℚ, 0 ≤ f → f < 1 →
      bicubic_h (1 + f) + bicubic_h f + bicubic_h (1 - f) + bicubic_h (2 - f) = 1) ∧
    (∀ (S : QImage) (c : QRgb) (s : ℚ), S.WF → (∀ p ∈ S.bits, p = c) → 0 < s →
      ∀ x y : Nat, x < (bc S s).width → y < (bc S s).height →
        (bc S s).pixel x y = some c) := by
  refine ⟨bicubic_h_sum, ?_⟩
  intro S c s hS hconst hs x y hx hy
  have hw : 1 ≤ S.width := source_pos_of_target S.width s x hx
  have hh : 1 ≤ S.height := source_pos_of_target S.height s y hy
  have hpix : (bc S s).pixel x y = some (bcPixel S s (x : Int) (y : Int)) := by
    unfold QImage.pixel
    exact raster_getElem? _ _ _ x y hx hy
  rw [hpix, bcPixel_const S c s hS hconst hs hw hh x y]

/-- C21, at a concrete input: the fraction 1/3, and the pixel `(1, 1)` of a
one-colour 2 by 2 page enlarged by 3/2. -/
theorem bicubic_partition_of_unity_witness :
    bicubic_h (1 + 1 / 3) + bicubic_h (1 / 3) + bicubic_h (1 - 1 / 3)
      + bicubic_h (2 - 1 / 3) = 1 ∧
    (bc (page 2 2 4278190335) (3 / 2)).pixel 1 1 = some 4278190335 :=
  ⟨bicubic_partition_of_unity.1 (1 / 3) (by norm_num) (by norm_num),
    bicubic_partition_of_unity.2 (page 2 2 4278190335) 4278190335 (3 / 2)
      (by unfold QImage.WF; exact ⟨rfl, by decide⟩) (by decide) (by norm_num) 1 1
      (by
        show 1 < (toInt ((((2 : Nat) : Int) : ℚ) * (3 / 2))).toNat
        rw [toInt_three]; decide)
      (by
        show 1 < (toInt ((((2 : Nat) : Int) : ℚ) * (3 / 2))).toNat
        rw [toInt_three]; decide)⟩

/-! ## Removing items that are not shown -/

/-- Deleting the first item with the address `p` moves an item with another
address from row `k` to row `k - 1` when the deleted row is below `k`, and
leaves it in row `k` otherwise. -/
theorem eraseP_track (p : Nat) (cur : PlayListItem) (hp : cur.ptr ≠ p) :
    ∀ (l : List PlayListItem) (k : Nat), l[k]? = some cur →
      (l.eraseP (fun it => it.ptr == p))[
        if l.findIdx (fun it => it.ptr == p) < k then k - 1 else k]? = some cur
  | [], k, h => by simp at h
  | a :: t, k, h => by
    by_cases ha : (a.ptr == p) = true
    · simp only [List.eraseP_cons, List.findIdx_cons, ha, cond_true]
      cases k with
      | zero =>
        simp only [List.getElem?_cons_zero, Option.some.injEq] at h
        subst h
        exact absurd (beq_iff_eq.mp ha) hp
      | succ k' =>
        rw [if_pos (Nat.succ_pos k')]
        simpa using h
    · have ha' : (a.ptr == p) = false := by simpa using ha
      simp only [List.eraseP_cons, List.findIdx_cons, ha', cond_false]
      cases k with
      | zero =>
        rw [if_neg (Nat.not_lt_zero _)]
        simpa using h
      | succ k' =>
        have ht : t[k']? = some cur := by simpa using h
        have ih := eraseP_track p cur hp t k' ht
        by_cases hlt : List.findIdx (fun it => it.ptr == p) t < k'
        · rw [if_pos hlt] at ih
          rw [if_pos (by omega)]
          obtain ⟨k'', rfl⟩ : ∃ k'', k' = k'' + 1 := ⟨k' - 1, by omega⟩
          simpa using ih
        · rw [if_neg hlt] at ih
          rw [if_neg (by omega)]
          simpa using ih

theorem row_of_mem (v : ImageViewer) (p : Nat) (hmem : ∃ it ∈ v.playlist, it.ptr = p) :
    v.row p = ((v.playlist.findIdx (fun it => it.ptr == p) : Nat) : Int) := by
  have hlt : v.playlist.findIdx (fun it => it.ptr == p) < v.playlist.length := by
    apply List.findIdx_lt_length_of_exists
    obtain ⟨it, h1, h2⟩ := hmem
    exact ⟨it, h1, by simpa using h2⟩
  unfold ImageViewer.row
  simp only [hlt, if_true]

/-- One pass of the loop of `playlistItemRemove` over an item that is in the
list, is not shown and is not the item `cur` under the cursor: the flag and
the call counter stay, the list loses the item, and `cur` is under the cursor
again. -/
theorem removeStep_hidden (cs : List (Option Nat)) (current : Option Nat)
    (v : ImageViewer) (b : Bool) (p : Nat) (cur : PlayListItem)
    (hcs : cs.contains (some p) = false)
    (hlen : v.img_count = (v.playlist.length : Int)) (h0 : 0 ≤ v.index)
    (hcur : v.playlist[v.index.toNat]? = some cur) (hp : cur.ptr ≠ p)
    (hmem : ∃ it ∈ v.playlist, it.ptr = p) :
    (ImageViewer.removeStep cs current (v, b) p).2 = b ∧
    (ImageViewer.removeStep cs current (v, b) p).1.playlist
      = v.playlist.eraseP (fun it => it.ptr == p) ∧
    (ImageViewer.removeStep cs current (v, b) p).1.img_count
      = ((ImageViewer.removeStep cs current (v, b) p).1.playlist.length : Int) ∧
    (ImageViewer.removeStep cs current (v, b) p).1.img_count = v.img_count - 1 ∧
    0 ≤ (ImageViewer.removeStep cs current (v, b) p).1.index ∧
    (ImageViewer.removeStep cs current (v, b) p).1.playlist[
      (ImageViewer.removeStep cs current (v, b) p).1.index.toNat]? = some cur ∧
    (ImageViewer.removeStep cs current (v, b) p).1.shows = v.shows := by
  have hrow := row_of_mem v p hmem
  have htrack := eraseP_track p cur hp v.playlist v.index.toNat hcur
  have hlen2 : (v.playlist.eraseP (fun it => it.ptr == p)).length = v.playlist.length - 1 := by
    obtain ⟨it, h1, h2⟩ := hmem
    exact List.length_eraseP_of_mem h1 (by simpa using h2)
  have hpos : 0 < v.playlist.length := by
    obtain ⟨it, h1, _⟩ := hmem
    exact List.length_pos_of_mem h1
  unfold ImageViewer.removeStep
  simp only [hcs, Bool.false_eq_true, if_false]
  by_cases hlt : v.row p < v.index
  · have hlt2 : List.findIdx (fun it => it.ptr == p) v.playlist < v.index.toNat := by
      rw [hrow] at hlt; omega
    rw [if_pos hlt2] at htrack
    rw [if_pos hlt]
    refine ⟨trivial, rfl, ?_, rfl, ?_, ?_, rfl⟩
    · show v.img_count - 1 = ((v.playlist.eraseP (fun it => it.ptr == p)).length : Int)
      rw [hlen2, hlen]; omega
    · show 0 ≤ v.index - 1
      rw [hrow] at hlt; omega
    · show (v.playlist.eraseP (fun it => it.ptr == p))[(v.index - 1).toNat]? = some cur
      have e : (v.index - 1).toNat = v.index.toNat - 1 := by omega
      rw [e]; exact htrack
  · have hlt2 : ¬ List.findIdx (fun it => it.ptr == p) v.playlist < v.index.toNat := by
      rw [hrow] at hlt; omega
    rw [if_neg hlt2] at htrack
    rw [if_neg hlt]
    refine ⟨trivial, rfl, ?_, rfl, h0, htrack, rfl⟩
    show v.img_count - 1 = ((v.playlist.eraseP (fun it => it.ptr == p)).length : Int)
    rw [hlen2, hlen]; omega

/-- The whole loop of `playlistItemRemove` over distinct items of the list
that are not shown. -/
theorem removeLoop_hidden (cs : List (Option Nat)) (current : Option Nat)
    (cur : PlayListItem) :
    ∀ (items : List Nat) (v : ImageViewer) (b : Bool), items.Nodup →
      (∀ p ∈ items, cs.contains (some p) = false) → (∀ p ∈ items, cur.ptr ≠ p) →
      (∀ p ∈ items, ∃ it ∈ v.playlist, it.ptr = p) →
      v.img_count = (v.playlist.length : Int) → 0 ≤ v.index →
      v.playlist[v.index.toNat]? = some cur →
      (items.foldl (ImageViewer.removeStep cs current) (v, b)).2 = b ∧
      (items.foldl (ImageViewer.removeStep cs current) (v, b)).1.img_count
        = ((items.foldl (ImageViewer.removeStep cs current) (v, b)).1.playlist.length : Int) ∧
      (items.foldl (ImageViewer.removeStep cs current) (v, b)).1.img_count
        = v.img_count - (items.length : Int) ∧
      0 ≤ (items.foldl (ImageViewer.removeStep cs current) (v, b)).1.index ∧
      (items.foldl (ImageViewer.removeStep cs current) (v, b)).1.playlist[
        (items.foldl (ImageViewer.removeStep cs current) (v, b)).1.index.toNat]? = some cur ∧
      (items.foldl (ImageViewer.removeStep cs current) (v, b)).1.shows = v.shows
  | [], v, b, _, _, _, _, hlen, h0, hcur => by
    simp only [List.foldl_nil, List.length_nil, Nat.cast_zero, sub_zero]
    exact ⟨trivial, hlen, trivial, h0, hcur, trivial⟩
  | p :: rest, v, b, hnd, hcs, hne, hmem, hlen, h0, hcur => by
    obtain ⟨s1, s2, s3, s4, s5, s6, s7⟩ := removeStep_hidden cs current v b p cur
      (hcs p (List.mem_cons_self p rest)) hlen h0 hcur (hne p (List.mem_cons_self p rest))
      (hmem p (List.mem_cons_self p rest))
    have hnd' := List.nodup_cons.mp hnd
    have hmem' : ∀ q ∈ rest, ∃ it ∈ (ImageViewer.removeStep cs current (v, b) p).1.playlist,
        it.ptr = q := by
      intro q hq
      obtain ⟨it, h1, h2⟩ := hmem q (List.mem_cons_of_mem p hq)
      refine ⟨it, ?_, h2⟩
      rw [s2]
      have hqp : q ≠ p := fun e => hnd'.1 (e ▸ hq)
      exact (List.mem_eraseP_of_neg (by simpa [h2] using hqp)).mpr h1
    have ih := removeLoop_hidden cs current cur rest (ImageViewer.removeStep cs current (v, b) p).1
      (ImageViewer.removeStep cs current (v, b) p).2 hnd'.2
      (fun q hq => hcs q (List.mem_cons_of_mem p hq))
      (fun q hq => hne q (List.mem_cons_of_mem p hq)) hmem' s3 s5 s6
    rw [List.foldl_cons]
    obtain ⟨i1, i2, i3, i4, i5, i6⟩ := ih
    refine ⟨by rw [i1, s1], i2, ?_, i4, i5, by rw [i6, s7]⟩
    rw [i3, s4, List.length_cons]
    push_cast
    omega

theorem item_eq_some (v : ImageViewer) (k : Int) (it : PlayListItem) :
    v.item k = some it ↔ 0 ≤ k ∧ v.playlist[k.toNat]? = some it := by
  unfold ImageViewer.item
  by_cases h : 0 ≤ k
  · rw [if_pos h]
    exact ⟨fun e => ⟨h, e⟩, fun e => e.2⟩
  · rw [if_neg h]
    exact ⟨fun e => Option.noConfusion e, fun e => absurd e.1 h⟩

/-- C22: on a playlist whose cursor is on the item `cur`, for a selection of
distinct items of the list none of which is shown (none in a row
`(c + i) mod N` with `0 ≤ i < countShowImages()`), in any order,
`playlistItemRemove` returns with the cursor in range and on `cur` again, with
as many items less as were selected, and without a call of `showImages`. -/
theorem remove_hidden_keeps_current (v : ImageViewer) (items : List Nat)
    (cur : PlayListItem) (hlen : v.img_count = (v.playlist.length : Int))
    (hcur : v.item v.index = some cur) (hnd : items.Nodup)
    (hmem : ∀ p ∈ items, ∃ it ∈ v.playlist, it.ptr = p)
    (hhidden : ∀ p ∈ items, ∀ i : Int, 0 ≤ i → i < v.countShowImages →
      (v.item ((v.index + i) % v.count)).map PlayListItem.ptr ≠ some p) :
    ∃ v', v.playlistItemRemove items = some v' ∧
      0 ≤ v'.index ∧ v'.index < v'.count ∧ v'.item v'.index = some cur ∧
      v'.shows = v.shows ∧ v'.count = v.count - (items.length : Int) := by
  obtain ⟨h0, hget⟩ := (item_eq_some v v.index cur).mp hcur
  have hidx : v.index.toNat < v.playlist.length := by
    rcases Nat.lt_or_ge v.index.toNat v.playlist.length with h | h
    · exact h
    · rw [List.getElem?_eq_none h] at hget; cases hget
  have hcount : 1 ≤ v.img_count := by omega
  have hlt : v.index < v.img_count := by omega
  cases items with
  | nil =>
    refine ⟨v, rfl, h0, hlt, hcur, rfl, ?_⟩
    simp
  | cons p0 rest =>
    obtain ⟨hd1, hd2, _⟩ := countShowImages_range v hcount
    have hne : ∀ p ∈ p0 :: rest, cur.ptr ≠ p := by
      intro p hp e
      have h := hhidden p hp 0 (le_refl 0) (by omega)
      rw [add_zero, ImageViewer.count, Int.emod_eq_of_lt h0 hlt, hcur] at h
      exact h (by simp [e])
    have hcs : ∀ p ∈ p0 :: rest,
        ((forRange 0 (min v.count v.countShowImages)).map
          (fun i => (v.item ((v.index + i).tmod v.count)).map PlayListItem.ptr)).contains
          (some p) = false := by
      intro p hp
      by_contra hc
      have hc2 : some p ∈ (forRange 0 (min v.count v.countShowImages)).map
          (fun i => (v.item ((v.index + i).tmod v.count)).map PlayListItem.ptr) := by
        simpa using hc
      obtain ⟨i, hi, hie⟩ := List.mem_map.mp hc2
      obtain ⟨hi0, hi1⟩ := mem_forRange hi
      have hi2 : i < v.countShowImages := lt_of_lt_of_le hi1 (min_le_right _ _)
      have ht : (v.index + i).tmod v.count = (v.index + i) % v.count :=
        Int.tmod_eq_emod (by omega) (by unfold ImageViewer.count; omega)
      rw [ht] at hie
      exact hhidden p hp i hi0 hi2 hie
    have key := removeLoop_hidden
      ((forRange 0 (min v.count v.countShowImages)).map
        (fun i => (v.item ((v.index + i).tmod v.count)).map PlayListItem.ptr))
      (if v.validIndex v.index then (v.item v.index).map PlayListItem.ptr else none)
      cur (p0 :: rest) v false hnd hcs hne hmem hlen h0 hget
    have hdef : v.playlistItemRemove (p0 :: rest) =
        (if (ImageViewer.empty ((p0 :: rest).foldl (ImageViewer.removeStep
            ((forRange 0 (min v.count v.countShowImages)).map
              (fun i => (v.item ((v.index + i).tmod v.count)).map PlayListItem.ptr))
            (if v.validIndex v.index then (v.item v.index).map PlayListItem.ptr else none))
            (v, false)).1) = true then
          some (ImageViewer.releaseImages ((p0 :: rest).foldl (ImageViewer.removeStep
            ((forRange 0 (min v.count v.countShowImages)).map
              (fun i => (v.item ((v.index + i).tmod v.count)).map PlayListItem.ptr))
            (if v.validIndex v.index then (v.item v.index).map PlayListItem.ptr else none))
            (v, false)).1)
        else if ((p0 :: rest).foldl (ImageViewer.removeStep
            ((forRange 0 (min v.count v.countShowImages)).map
              (fun i => (v.item ((v.index + i).tmod v.count)).map PlayListItem.ptr))
            (if v.validIndex v.index then (v.item v.index).map PlayListItem.ptr else none))
            (v, false)).2 = true then
          ImageViewer.showImages ((p0 :: rest).foldl (ImageViewer.removeStep
            ((forRange 0 (min v.count v.countShowImages)).map
              (fun i => (v.item ((v.index + i).tmod v.count)).map PlayListItem.ptr))
            (if v.validIndex v.index then (v.item v.index).map PlayListItem.ptr else none))
            (v, false)).1
        else some ((p0 :: rest).foldl (ImageViewer.removeStep
            ((forRange 0 (min v.count v.countShowImages)).map
              (fun i => (v.item ((v.index + i).tmod v.count)).map PlayListItem.ptr))
            (if v.validIndex v.index then (v.item v.index).map PlayListItem.ptr else none))
            (v, false)).1) := rfl
    rw [hdef]
    generalize (p0 :: rest).foldl (ImageViewer.removeStep
      ((forRange 0 (min v.count v.countShowImages)).map
        (fun i => (v.item ((v.index + i).tmod v.count)).map PlayListItem.ptr))
      (if v.validIndex v.index then (v.item v.index).map PlayListItem.ptr else none))
      (v, false) = acc at key ⊢
    obtain ⟨a1, a2, a3, a4, a5, a6⟩ := key
    have hidx' : acc.1.index.toNat < acc.1.playlist.length := by
      rcases Nat.lt_or_ge acc.1.index.toNat acc.1.playlist.length with h | h
      · exact h
      · rw [List.getElem?_eq_none h] at a5; cases a5
    have hne2 : acc.1.empty = false := by
      simp only [ImageViewer.empty, ImageViewer.count]
      exact beq_false_of_ne (by omega)
    rw [hne2, a1]
    simp only [Bool.false_eq_true, if_false]
    refine ⟨acc.1, rfl, a4, ?_, (item_eq_some _ _ cur).mpr ⟨a4, a5⟩, a6, a3⟩
    unfold ImageViewer.count
    omega

/-- C22, at a concrete input: four items, cursor on row 2, spread view off;
the selection is the items of rows 3 and 0, in that order. -/
theorem remove_hidden_keeps_current_witness :
    ∃ v', fourItems.playlistItemRemove [3, 0] = some v' ∧
      0 ≤ v'.index ∧ v'.index < v'.count ∧
      v'.item v'.index = some ⟨2, File.ofRaw (toString 2)⟩ ∧
      v'.shows = fourItems.shows ∧
      v'.count = fourItems.count - (([3, 0] : List Nat).length : Int) :=
  remove_hidden_keeps_current fourItems [3, 0] ⟨2, File.ofRaw (toString 2)⟩ rfl rfl
    (by decide) (by decide) (by
      intro p hp i hi0 hi1
      have hi : i = 0 := by
        have : fourItems.countShowImages = 1 := by decide
        omega
      subst hi
      have hp' : p = 3 ∨ p = 0 := by simpa using hp
      rcases hp' with rfl | rfl <;> decide)

end SpRead
